import Mathlib

set_option maxRecDepth 100000

set_option maxHeartbeats 1000000

/-!
Verification development for the prompt-silo encrypted record engine
(`src/main.ts`).  The TypeScript source is shallowly embedded: strings are
modelled as their lists of code units (`List Char`, each code unit a `Char`
whose numeric value is used where the cipher needs bytes), the CryptoJS
AES layer is modelled by its OpenSSL-compatible structure (fresh salt,
key derivation, CBC over an abstract 16-byte block cipher, PKCS7 padding,
Base64 text encoding) with the block-cipher core and the KDF as explicit
parameters, and every regular expression of the source is rendered as an
executable matcher that follows the engine's leftmost / greedy /
backtracking behaviour on the inputs the theorems quantify over.
-/

/-! ## Generic helpers -/

/-- Whitespace characters recognised by the JavaScript regex class
backslash-s, restricted to the ASCII range used by the document format. -/
def isWsChar (c : Char) : Bool :=
  c = ' ' ∨ c = '\t' ∨ c = '\n' ∨ c = '\r' ∨ c = '\x0b' ∨ c = '\x0c'

/-- JavaScript `String.prototype.trim`: strip whitespace at both ends. -/
def trimChars (l : List Char) : List Char :=
  ((l.dropWhile isWsChar).reverse.dropWhile isWsChar).reverse

/-- JavaScript `String.prototype.trim` at `String` level. -/
def trimS (s : String) : String := ⟨trimChars s.data⟩

/-- JavaScript `toLowerCase` (ASCII range). -/
def toLowerS (s : String) : String := ⟨s.data.map Char.toLower⟩

/-- JavaScript `String.prototype.includes`. -/
def substrB (needle hay : List Char) : Bool :=
  (List.range (hay.length + 1)).any (fun i => needle.isPrefixOf (hay.drop i))

/-- Match a literal list of characters at the head of the input and
return the remainder, or `none` if the literal is not a prefix. -/
def lit : List Char → List Char → Option (List Char)
  | [], s => some s
  | _ :: _, [] => none
  | c :: cs, d :: ds => if d = c then lit cs ds else none

/-- Byte-wise xor of two lists (used by CBC chaining). -/
def xorB (a b : List Nat) : List Nat := List.zipWith Nat.xor a b

/-! ## Base64 (the portable text encoding CryptoJS uses for ciphertext) -/

/-- The Base64 alphabet. -/
def b64Tab : List Char :=
  ("ABCDEFGHIJKLMNOPQRSTUVWXYZabcdefghijklmnopqrstuvwxyz0123456789+/").data

/-- Character for a six-bit group. -/
def b64Char (n : Nat) : Char := b64Tab.getD n 'A'

/-- Index of a Base64 character in the alphabet. -/
def b64Index (c : Char) : Option Nat := b64Tab.findIdx? (· = c)

/-- Base64 encoding of a byte list, three bytes at a time, with `=`
padding, as produced by `CryptoJS.enc.Base64.stringify`. -/
def b64Encode : List Nat → List Char
  | [] => []
  | [a] => [b64Char (a / 4), b64Char (a % 4 * 16), '=', '=']
  | [a, b] => [b64Char (a / 4), b64Char (a % 4 * 16 + b / 16),
      b64Char (b % 16 * 4), '=']
  | a :: b :: c :: rest =>
      b64Char (a / 4) :: b64Char (a % 4 * 16 + b / 16) ::
      b64Char (b % 16 * 4 + c / 64) :: b64Char (c % 64) :: b64Encode rest

/-- Base64 decoding, inverse of `b64Encode` on its image; `none` on any
text that is not well-formed Base64 of this shape. -/
def b64Decode : List Char → Option (List Nat)
  | [] => some []
  | w :: x :: y :: z :: rest =>
    match b64Index w, b64Index x with
    | some iw, some ix =>
      if y = '=' ∧ z = '=' ∧ rest = [] then
        some [iw * 4 + ix / 16]
      else if z = '=' ∧ rest = [] then
        match b64Index y with
        | some iy => some [iw * 4 + ix / 16, ix % 16 * 16 + iy / 4]
        | none => none
      else
        match b64Index y, b64Index z, b64Decode rest with
        | some iy, some iz, some bs =>
          some ((iw * 4 + ix / 16) :: (ix % 16 * 16 + iy / 4) ::
            (iy % 4 * 64 + iz) :: bs)
        | _, _, _ => none
    | _, _ => none
  | _ => none

/-! ## Cipher (EncryptionService.encrypt / EncryptionService.decrypt)

`CryptoJS.AES.encrypt(plaintext, key)` with a string key uses the
OpenSSL-compatible scheme: a fresh 8-byte random salt, an EvpKDF-derived
key and IV, AES-256-CBC with PKCS7 padding, and a Base64 text encoding of
the bytes of the ASCII string Salted underscore underscore followed by
the salt and the raw ciphertext.  The AES block permutation and the KDF
are external library primitives; they are embedded as parameters
(`CipherPrims`), with the structural properties AES satisfies recorded in
`GoodPrims`.  The per-call salt is the call's randomness and is passed
explicitly. -/

structure CipherPrims where
  encBlock : List Nat → List Nat → List Nat
  decBlock : List Nat → List Nat → List Nat
  kdf : String → List Nat → List Nat × List Nat

/-- Structural facts about the block cipher and KDF used in the scheme:
the block transform maps 16-byte blocks to 16-byte blocks, is inverted by
`decBlock`, and the derived IV is a 16-byte block. -/
def GoodPrims (P : CipherPrims) : Prop :=
  (∀ k b, b.length = 16 → (P.encBlock k b).length = 16) ∧
  (∀ k b, b.length = 16 → (∀ x ∈ b, x < 256) → ∀ x ∈ P.encBlock k b, x < 256) ∧
  (∀ k b, b.length = 16 → P.decBlock k (P.encBlock k b) = b) ∧
  (∀ key salt, (P.kdf key salt).2.length = 16 ∧ ∀ x ∈ (P.kdf key salt).2, x < 256)

/-- PKCS7 padding to a multiple of 16 bytes. -/
def padPKCS7 (bs : List Nat) : List Nat :=
  bs ++ List.replicate (16 - bs.length % 16) (16 - bs.length % 16)

/-- PKCS7 unpadding as CryptoJS performs it: read the final byte and
drop that many bytes (no validation). -/
def unpadPKCS7 (bs : List Nat) : List Nat :=
  bs.take (bs.length - (bs.getLast?.getD 0))

/-- Split a byte list into 16-byte chunks (fuel-driven so that every
definition in the development reduces by kernel computation). -/
def chunk16F : Nat → List Nat → List (List Nat)
  | 0, _ => []
  | _, [] => []
  | fuel + 1, l => l.take 16 :: chunk16F fuel (l.drop 16)

def chunk16 (l : List Nat) : List (List Nat) := chunk16F l.length l

/-- CBC encryption over a list of plaintext blocks. -/
def cbcEncBlocks (P : CipherPrims) (k : List Nat) : List Nat → List (List Nat) →
    List (List Nat)
  | _, [] => []
  | prev, b :: bs =>
    let c := P.encBlock k (xorB prev b)
    c :: cbcEncBlocks P k c bs

/-- CBC decryption over a list of ciphertext blocks. -/
def cbcDecBlocks (P : CipherPrims) (k : List Nat) : List Nat → List (List Nat) →
    List (List Nat)
  | _, [] => []
  | prev, c :: cs => xorB prev (P.decBlock k c) :: cbcDecBlocks P k c cs

/-- Byte values of the ASCII header OpenSSL-style ciphertext starts with. -/
def saltedMagic : List Nat := [83, 97, 108, 116, 101, 100, 95, 95]

/-- Bytes of a string, one code unit per character. -/
def strToBytes (s : String) : List Nat := s.data.map Char.toNat

/-- String from byte values (code units below 256, the range the record
format uses). -/
def bytesToStr (bs : List Nat) : String := ⟨bs.map Char.ofNat⟩

/-- `EncryptionService.encrypt` (main.ts line 23-25) at byte level: CBC
encrypt the padded plaintext under the KDF-derived key/IV for the given
fresh salt, then emit the Base64 text of the salted header. -/
def encryptBytes (P : CipherPrims) (pt : List Nat) (key : String)
    (salt : List Nat) : String :=
  let kiv := P.kdf key salt
  let ct := (cbcEncBlocks P kiv.1 kiv.2 (chunk16 (padPKCS7 pt))).flatten
  ⟨b64Encode (saltedMagic ++ salt ++ ct)⟩

/-- `EncryptionService.decrypt` (main.ts line 28-36) at byte level:
decode the Base64 text, recover the embedded salt, re-derive the key/IV,
CBC-decrypt and unpad; `none` models the failure path that the source
maps to the `[Decryption Error]` marker. -/
def decryptBytes (P : CipherPrims) (ct : String) (key : String) :
    Option (List Nat) :=
  match b64Decode ct.data with
  | none => none
  | some bs =>
    if bs.take 8 = saltedMagic then
      let salt := (bs.drop 8).take 8
      let body := bs.drop 16
      let kiv := P.kdf key salt
      some (unpadPKCS7 (cbcDecBlocks P kiv.1 kiv.2 (chunk16 body)).flatten)
    else none

/-- `EncryptionService.encrypt` at `String` level. -/
def encryptS (P : CipherPrims) (plaintext key : String) (salt : List Nat) :
    String :=
  encryptBytes P (strToBytes plaintext) key salt

/-- `EncryptionService.decrypt` at `String` level, including the
`[Decryption Error]` marker returned by the source's catch branch. -/
def decryptS (P : CipherPrims) (ciphertext key : String) : String :=
  match decryptBytes P ciphertext key with
  | some bs => bytesToStr bs
  | none => "[Decryption Error]"

/-! ### A concrete instantiation of the primitives

Used by witnesses: a self-inverse xor block transform together with a
simple KDF.  It satisfies every structural property `GoodPrims` records
about the real AES-256/EvpKDF primitives. -/

/-- A 16-byte keystream derived from a key byte list. -/
def ks16 (k : List Nat) : List Nat :=
  (k.map (· % 256) ++ List.replicate 16 0).take 16

/-- Xor-based block transform and KDF standing in for AES-256/EvpKDF in
concrete witnesses. -/
def xorPrims : CipherPrims where
  encBlock := fun k b => xorB (ks16 k) b
  decBlock := fun k b => xorB (ks16 k) b
  kdf := fun key salt =>
    (strToBytes key, (salt.map (· % 256) ++ List.replicate 16 0).take 16)

/-! ## KeyResolver (EncryptionService.extractKeys, main.ts lines 13-20)

The source matches the multiline-anchored patterns
PrimaryKey equals quoted-value and SecondaryKey equals quoted-value with
a lazy nonempty capture between the quotes.  The matcher below follows
the regex deterministically: at a line start, the literal name, greedy
whitespace, the equals sign, greedy whitespace, an opening quote, then
the shortest nonempty run of non-newline characters that reaches a
closing quote. -/

def primaryKeyLit : List Char := ("PrimaryKey").data

def secondaryKeyLit : List Char := ("SecondaryKey").data

/-- Match one key header pattern at a line-start position. -/
def matchKeyLineAt (name s : List Char) : Option (List Char) :=
  (lit name s).bind fun r1 =>
  (lit (['=']) (r1.dropWhile isWsChar)).bind fun r3 =>
  (lit (['"']) (r3.dropWhile isWsChar)).bind fun r5 =>
  match r5 with
  | [] => none
  | c0 :: t =>
    if c0 = '\n' then none
    else
      let pre := t.takeWhile (fun c => ¬ c = '"' ∧ ¬ c = '\n')
      match t.drop pre.length with
      | '"' :: _ => some (c0 :: pre)
      | _ => none

/-- Advance past the next newline (the next line-start position the
multiline anchor can match at), or `none` at the last line. -/
def dropToNextLine (s : List Char) : Option (List Char) :=
  match s.dropWhile (fun c => ¬ c = '\n') with
  | '\n' :: t => some t
  | _ => none

/-- Scan the document's line starts for the first header match. -/
def extractKeyNameF (name : List Char) : Nat → List Char → Option String
  | 0, _ => none
  | fuel + 1, s =>
    match matchKeyLineAt name s with
    | some v => some ⟨v⟩
    | none =>
      match dropToNextLine s with
      | some t => extractKeyNameF name fuel t
      | none => none

structure KeysOut where
  primary : Option String
  secondary : Option String
deriving DecidableEq, Repr

/-- `EncryptionService.extractKeys`. -/
def extractKeys (content : String) : KeysOut :=
  { primary := extractKeyNameF primaryKeyLit (content.data.length + 1) content.data,
    secondary :=
      extractKeyNameF secondaryKeyLit (content.data.length + 1) content.data }

/-! ## Redactor (PiiRedactionService.redact, main.ts lines 45-59)

Three global regex replaces applied in source order: e-mail, phone, SSN.
Each matcher reproduces the engine's leftmost-match semantics including
word boundaries (which read the characters of the string being scanned)
and the greedy/backtracking order of the optional groups. -/

def isWordChar (c : Char) : Bool := c.isAlpha ∨ c.isDigit ∨ c = '_'

def emailLocalChar (c : Char) : Bool :=
  c.isAlpha ∨ c.isDigit ∨ c = '.' ∨ c = '_' ∨ c = '%' ∨ c = '+' ∨ c = '-'

def emailDomChar (c : Char) : Bool := c.isAlpha ∨ c.isDigit ∨ c = '.' ∨ c = '-'

/-- Word boundary between the previous character (none at string start)
and the first character of a candidate match. -/
def boundaryB (prev : Option Char) (cur : Char) : Bool :=
  ¬ ((match prev with | none => false | some p => isWordChar p) = isWordChar cur)

/-- After the dot at offset `k` of the domain, a greedy top-level-domain
run of at least two letters followed by a word boundary. -/
def tldOkAt (r2 : List Char) (k : Nat) : Bool :=
  let T := (r2.drop (k + 1)).takeWhile (fun c => c.isAlpha)
  decide (2 ≤ T.length) && (match (r2.drop (k + 1 + T.length)).head? with
    | none => true
    | some c => ! isWordChar c)

/-- Backtracking over the domain part: the engine shortens the greedy
domain run until the literal dot and the TLD pattern fit, so the largest
feasible dot offset wins. -/
def emailSplit (r2 : List Char) : Option Nat :=
  let R := r2.takeWhile emailDomChar
  (List.range R.length).reverse.find? (fun k =>
    1 ≤ k ∧ R.getD k ' ' = '.' ∧ tldOkAt r2 k)

/-- The e-mail pattern of `PiiRedactionService.redact` at one position. -/
def matchEmailAt (prev : Option Char) (s : List Char) :
    Option (List Char × List Char) :=
  let loc := s.takeWhile emailLocalChar
  match loc.head? with
  | none => none
  | some c0 =>
    if boundaryB prev c0 then
      match s.drop loc.length with
      | '@' :: r2 =>
        match emailSplit r2 with
        | some k =>
          let tlen := ((r2.drop (k + 1)).takeWhile (fun c => c.isAlpha)).length
          some (loc ++ '@' :: r2.take (k + 1 + tlen), r2.drop (k + 1 + tlen))
        | none => none
      | _ => none
    else none

/-- Alternatives of an optional single character, consumed-first. -/
def altOptChar (p : Char → Bool) (s : List Char) :
    List (List Char × List Char) :=
  match s with
  | c :: r => if p c then [([c], r), ([], s)] else [([], s)]
  | [] => [([], [])]

/-- Exactly `n` digits. -/
def digitsN : Nat → List Char → Option (List Char × List Char)
  | 0, s => some ([], s)
  | _ + 1, [] => none
  | n + 1, c :: r =>
    if c.isDigit then (fun pr => (c :: pr.1, pr.2)) <$> digitsN n r else none

def toAlts : Option (List Char × List Char) → List (List Char × List Char)
  | some pr => [pr]
  | none => []

/-- Sequencing of alternative lists, preserving backtracking priority. -/
def seqAlts (f g : List Char → List (List Char × List Char)) (s : List Char) :
    List (List Char × List Char) :=
  (f s).flatMap (fun pr => (g pr.2).map (fun qr => (pr.1 ++ qr.1, qr.2)))

def isSepChar (c : Char) : Bool := isWsChar c ∨ c = '.' ∨ c = '-'

/-- Country-code group: optional plus, one or two digits, optional space. -/
def phoneA (s : List Char) : List (List Char × List Char) :=
  seqAlts (altOptChar (fun c => c = '+'))
    (seqAlts (fun t => toAlts (digitsN 2 t) ++ toAlts (digitsN 1 t))
      (altOptChar isWsChar)) s

/-- Area-code group: optional parens around three digits, optional separator. -/
def phoneB (s : List Char) : List (List Char × List Char) :=
  seqAlts (altOptChar (fun c => c = '('))
    (seqAlts (fun t => toAlts (digitsN 3 t))
      (seqAlts (altOptChar (fun c => c = ')')) (altOptChar isSepChar))) s

/-- Mandatory core: three digits, optional separator, four digits. -/
def phoneC (s : List Char) : List (List Char × List Char) :=
  seqAlts (fun t => toAlts (digitsN 3 t))
    (seqAlts (altOptChar isSepChar) (fun t => toAlts (digitsN 4 t))) s

/-- All alternatives of the phone pattern in engine priority order. -/
def phoneAlts (s : List Char) : List (List Char × List Char) :=
  seqAlts (fun t => phoneA t ++ [([], t)])
    (seqAlts (fun t => phoneB t ++ [([], t)]) phoneC) s

/-- The phone pattern of `PiiRedactionService.redact` at one position:
the first alternative that completes is the engine's match. -/
def matchPhoneAt (s : List Char) : Option (List Char × List Char) :=
  (phoneAlts s).head?

/-- The SSN pattern at one position, with its two word boundaries. -/
def matchSsnAt (prev : Option Char) (s : List Char) :
    Option (List Char × List Char) :=
  match s with
  | a :: b :: c :: '-' :: d :: e :: '-' :: f :: g :: h :: i :: r =>
    if a.isDigit && b.isDigit && c.isDigit && d.isDigit && e.isDigit && f.isDigit &&
        g.isDigit && h.isDigit && i.isDigit &&
        (match prev with | none => true | some p => ! isWordChar p) &&
        (match r.head? with | none => true | some q => ! isWordChar q) then
      some ([a, b, c, '-', d, e, '-', f, g, h, i], r)
    else none
  | _ => none

/-- Global regex replacement: scan left to right, try the matcher at each
position, replace matches with the placeholder and also collect the
matched substrings.  `prev` tracks the previous character of the scanned
string (word boundaries evaluate on the original text). -/
def replScanF (m : Option Char → List Char → Option (List Char × List Char))
    (ph : List Char) : Nat → Option Char → List Char →
    List Char × List (List Char)
  | 0, _, s => (s, [])
  | fuel + 1, prev, s =>
    match m prev s with
    | some (c, r) =>
      let q := replScanF m ph fuel ((c.getLast?).orElse (fun _ => prev)) r
      (ph ++ q.1, c :: q.2)
    | none =>
      match s with
      | [] => ([], [])
      | a :: t =>
        let q := replScanF m ph fuel (some a) t
        (a :: q.1, q.2)

/-- Result text of one global replace. -/
def replaceAllM (m : Option Char → List Char → Option (List Char × List Char))
    (ph : List Char) (s : List Char) : List Char :=
  (replScanF m ph (s.length + 1) none s).1

/-- Matched substrings of one global replace. -/
def matchesOfM (m : Option Char → List Char → Option (List Char × List Char))
    (s : List Char) : List (List Char) :=
  (replScanF m [] (s.length + 1) none s).2

def emailPh : List Char := ("[REDACTED_EMAIL]").data

def phonePh : List Char := ("[REDACTED_PHONE]").data

def ssnPh : List Char := ("[REDACTED_SSN]").data

/-- `PiiRedactionService.redact` on character lists: e-mail, then phone,
then SSN replacement, in the source's order. -/
def redactChars (s : List Char) : List Char :=
  replaceAllM matchSsnAt ssnPh
    (replaceAllM (fun _ t => matchPhoneAt t) phonePh
      (replaceAllM matchEmailAt emailPh s))

/-- `PiiRedactionService.redact`. -/
def redact (text : String) : String := ⟨redactChars text.data⟩

/-- Substrings replaced by the phone-number redaction step. -/
def phoneMatches (s : List Char) : List (List Char) :=
  matchesOfM (fun _ t => matchPhoneAt t) s

def countDigits (l : List Char) : Nat := (l.filter (fun c => c.isDigit)).length

/-! ## RecordCodec (the block regex of handleDecryption, main.ts line 164,
and the serializer of insertEncryptedPromptEntry, lines 134-142) -/

def startMarker : List Char := ("<!-- Encrypted Prompt Entry -->").data

def endMarker : List Char := ("<!-- End Encrypted Prompt Entry -->").data

def idLabel : List Char := ("**ID:**").data

def contentLabel : List Char := ("**Primary Encrypted Content:**").data

def metadataLabel : List Char := ("**Primary Encrypted Metadata:**").data

def referenceLabel : List Char := ("**Secondary Encrypted Reference:**").data

def encTag : List Char := ("ENC:").data

/-- Greedy whitespace run that must end with a newline (the regex piece
whitespace-star newline before a non-whitespace literal). -/
def wsThenNl (s : List Char) : Option (List Char) :=
  if 1 ≤ (s.takeWhile isWsChar).length ∧
      (s.takeWhile isWsChar).getLast? = some '\n'
  then some (s.drop (s.takeWhile isWsChar).length) else none

/-- Greedy nonempty capture up to the next newline, consuming it (the
regex piece dot-plus newline before a literal on the next line). -/
def capLine (s : List Char) : Option (List Char × List Char) :=
  match s.drop (s.takeWhile (fun c => ¬ c = '\n')).length with
  | '\n' :: r =>
    if 1 ≤ (s.takeWhile (fun c => ¬ c = '\n')).length
    then some (s.takeWhile (fun c => ¬ c = '\n'), r) else none
  | _ => none

/-- Whitespace-star before the greedy capture (the ID line). -/
def wsCapLine (s : List Char) : Option (List Char × List Char) :=
  capLine (s.dropWhile isWsChar)

structure RawEntry where
  id : List Char
  c1 : List Char
  c2 : List Char
  c3 : List Char
deriving DecidableEq, Repr

/-- One attempt of the block regex at a fixed position. -/
def matchBlockAt (s : List Char) : Option (RawEntry × List Char) :=
  (lit startMarker s).bind fun r1 =>
  (wsThenNl r1).bind fun r2 =>
  (lit idLabel r2).bind fun r3 =>
  (wsCapLine r3).bind fun p1 =>
  (lit contentLabel p1.2).bind fun r5 =>
  (lit encTag (r5.dropWhile isWsChar)).bind fun r6 =>
  (capLine r6).bind fun p2 =>
  (lit metadataLabel p2.2).bind fun r8 =>
  (lit encTag (r8.dropWhile isWsChar)).bind fun r9 =>
  (capLine r9).bind fun p3 =>
  (lit referenceLabel p3.2).bind fun r11 =>
  (lit encTag (r11.dropWhile isWsChar)).bind fun r12 =>
  (capLine r12).bind fun p4 =>
  (lit endMarker p4.2).map fun rest =>
  ({ id := p1.1, c1 := p2.1, c2 := p3.1, c3 := p4.1 }, rest)

/-- `matchAll` over the document: leftmost non-overlapping matches in
document order, scanning forward one character on failure. -/
def scanBlocksF : Nat → List Char → List RawEntry
  | 0, _ => []
  | fuel + 1, s =>
    match matchBlockAt s with
    | some fr => fr.1 :: scanBlocksF fuel fr.2
    | none =>
      match s with
      | [] => []
      | _ :: t => scanBlocksF fuel t

/-- The parse of the whole document. -/
def scanBlocks (s : List Char) : List RawEntry := scanBlocksF s.length s

/-- `Array.prototype.join` with a newline separator. -/
def joinLines : List (List Char) → List Char
  | [] => []
  | [l] => l
  | l :: ls => l ++ '\n' :: joinLines ls

/-- The lines of the serialized entry, exactly as built at main.ts
lines 134-142 (the final empty line produces the trailing newline). -/
def entryLines (uniqueId encC encM encR : List Char) : List (List Char) :=
  [startMarker,
   idLabel ++ ' ' :: uniqueId,
   contentLabel ++ ' ' :: (encTag ++ encC),
   metadataLabel ++ ' ' :: (encTag ++ encM),
   referenceLabel ++ ' ' :: (encTag ++ encR),
   endMarker,
   []]

/-- The write path of the record codec. -/
def serializeEntry (uniqueId encC encM encR : List Char) : List Char :=
  joinLines (entryLines uniqueId encC encM encR)

/-! ## Operations (PromptSilo and the modals) -/

inductive PSErr where
  | secretNotFound
  | noRecords
deriving DecidableEq, Repr

structure LookupEntry where
  id : String
  primaryContent : String
  primaryMetadata : String
  encryptedReference : String
deriving DecidableEq, Repr

structure RefObj where
  timestamp : String
  notes : String
  tags : String
deriving DecidableEq, Repr

structure ProcessedEntry where
  id : String
  timestamp : String
  notes : String
  tags : String
  primaryContent : String
  primaryMetadata : String
deriving DecidableEq, Repr

structure DecEntry where
  id : String
  content : String
  metadata : String
deriving DecidableEq, Repr

/-- Body of a JSON string literal: consume up to the closing quote,
unescaping quote and backslash escapes; reject control characters and
unterminated strings (the cases on which `JSON.parse` throws for the
strings `JSON.stringify` produces here). -/
def jsonStr : List Char → Option (List Char × List Char)
  | [] => none
  | '"' :: r => some ([], r)
  | '\\' :: c :: r =>
    if c = '"' ∨ c = '\\' then (fun pr => (c :: pr.1, pr.2)) <$> jsonStr r
    else none
  | c :: r =>
    if c.toNat < 32 then none
    else (fun pr => (c :: pr.1, pr.2)) <$> jsonStr r

/-- `JSON.parse` restricted to the canonical shape `JSON.stringify`
gives the reference object (timestamp, notes, tags, in that order);
`none` models the catch branch of renderEntries. -/
def parseRef (s : String) : Option RefObj :=
  (lit (("\x7b\"timestamp\":\"").data) s.data).bind fun r1 =>
  (jsonStr r1).bind fun p1 =>
  (lit ((",\"notes\":\"").data) p1.2).bind fun r2 =>
  (jsonStr r2).bind fun p2 =>
  (lit ((",\"tags\":\"").data) p2.2).bind fun r3 =>
  (jsonStr r3).bind fun p3 =>
  match p3.2 with
  | ['\x7d'] => some { timestamp := ⟨p1.1⟩, notes := ⟨p2.1⟩, tags := ⟨p3.1⟩ }
  | _ => none

/-- Escaping of `JSON.stringify` for the characters the reference fields
may contain (quote and backslash). -/
def jsonEscape : List Char → List Char
  | [] => []
  | c :: r =>
    if c = '"' ∨ c = '\\' then '\\' :: c :: jsonEscape r else c :: jsonEscape r

/-- `JSON.stringify(referenceObj)` (main.ts line 130). -/
def refStringify (timestamp notes tags : String) : String :=
  ⟨("\x7b\"timestamp\":\"").data ++ jsonEscape timestamp.data ++
    (("\",\"notes\":\"").data) ++ jsonEscape notes.data ++
    (("\",\"tags\":\"").data) ++ jsonEscape tags.data ++ (("\"\x7d").data)⟩

/-- One entry of the lookup modal as captured at main.ts lines 208-213. -/
def entryOfMatch (m : RawEntry) : LookupEntry :=
  { id := trimS ⟨m.id⟩, primaryContent := trimS ⟨m.c1⟩,
    primaryMetadata := trimS ⟨m.c2⟩, encryptedReference := trimS ⟨m.c3⟩ }

/-- Decrypt and deserialize one entry's reference sidecar, substituting
the error placeholders on failure (main.ts lines 372-388). -/
def processEntry (P : CipherPrims) (secondaryKey : String) (e : LookupEntry) :
    ProcessedEntry :=
  match parseRef (decryptS P e.encryptedReference secondaryKey) with
  | some refObj =>
    { id := e.id, timestamp := refObj.timestamp, notes := refObj.notes,
      tags := refObj.tags, primaryContent := e.primaryContent,
      primaryMetadata := e.primaryMetadata }
  | none =>
    { id := e.id, timestamp := "[Error]", notes := "[Error]", tags := "",
      primaryContent := e.primaryContent, primaryMetadata := e.primaryMetadata }

/-- `ReferenceLookupModal.renderEntries`: process every entry, then
filter by case-insensitive tag search (main.ts lines 366-413). -/
def renderEntries (P : CipherPrims) (secondaryKey searchQuery : String)
    (entries : List LookupEntry) : List ProcessedEntry :=
  (entries.map (processEntry P secondaryKey)).filter
    (fun e => substrB searchQuery.data (toLowerS e.tags).data)

/-- `PromptSilo.openReferenceLookupModal` followed by the modal's render
with the given search query (initially the empty string). -/
def lookup (P : CipherPrims) (doc searchQuery : String) :
    Except PSErr (List ProcessedEntry) :=
  match (extractKeys doc).secondary with
  | none => .error .secretNotFound
  | some ks =>
    let ms := scanBlocks doc.data
    if ms.isEmpty then .error .noRecords
    else .ok (renderEntries P ks searchQuery (ms.map entryOfMatch))

/-- `PromptSilo.handleDecryption` (main.ts lines 152-179). -/
def handleDecryption (P : CipherPrims) (doc : String) :
    Except PSErr (List DecEntry) :=
  match (extractKeys doc).primary with
  | none => .error .secretNotFound
  | some kp =>
    let ms := scanBlocks doc.data
    if ms.isEmpty then .error .noRecords
    else .ok (ms.map (fun m =>
      { id := trimS ⟨m.id⟩, content := decryptS P (trimS ⟨m.c1⟩) kp,
        metadata := decryptS P (trimS ⟨m.c2⟩) kp }))

/-- `EntryDetailsModal.onOpen` (main.ts lines 437-461): re-extract the
primary key from the document and decrypt the selected entry's fields. -/
def revealDetails (P : CipherPrims) (doc : String) (entry : ProcessedEntry) :
    Except PSErr (String × String) :=
  match (extractKeys doc).primary with
  | none => .error .secretNotFound
  | some kp =>
    .ok (decryptS P entry.primaryContent kp, decryptS P entry.primaryMetadata kp)

/-- `editor.replaceSelection` with an empty selection: insert at cursor. -/
def insertAt (doc : String) (pos : Nat) (entry : List Char) : String :=
  ⟨doc.data.take pos ++ entry ++ doc.data.drop pos⟩

/-- `PromptSilo.insertEncryptedPromptEntry` (main.ts lines 104-146).
The environment inputs the source draws ambiently (cursor position,
timestamp, `Date.now()` id, the three fresh salts) are explicit
arguments; the result pairs the resulting document text with the
reported error, if any. -/
def insertEncryptedPromptEntry (P : CipherPrims) (doc : String) (cursor : Nat)
    (content metadata notes tags timestamp uniqueId : String)
    (saltC saltM saltR : List Nat) : String × Option PSErr :=
  match (extractKeys doc).primary with
  | none => (doc, some .secretNotFound)
  | some kp =>
    match (extractKeys doc).secondary with
    | none => (doc, some .secretNotFound)
    | some ks =>
      let redactedContent := redact content
      let encryptedContent := encryptS P redactedContent kp saltC
      let encryptedMetadata := encryptS P metadata kp saltM
      let referenceStr := refStringify timestamp notes tags
      let encryptedReference := encryptS P referenceStr ks saltR
      let entry := serializeEntry uniqueId.data encryptedContent.data
        encryptedMetadata.data encryptedReference.data
      (insertAt doc cursor entry, none)

/-- Well-formedness of a serialized field: nonempty and newline-free. -/
def goodField (l : List Char) : Prop := l ≠ [] ∧ ∀ c ∈ l, ¬ c = '\n'

/-- Well-formedness of a record as the write path produces it (the id
additionally must not begin with whitespace; a time-based decimal id and
Base64 ciphertexts satisfy all of this). -/
def goodEntry (e : RawEntry) : Prop :=
  goodField e.id ∧ goodField e.c1 ∧ goodField e.c2 ∧ goodField e.c3 ∧
    ∀ c, e.id.head? = some c → isWsChar c = false

instance goodFieldDec (l : List Char) : Decidable (goodField l) := by
  unfold goodField; infer_instance

instance goodEntryDec (e : RawEntry) : Decidable (goodEntry e) := by
  unfold goodEntry; infer_instance

/-- A document built from prose segments and serialized record blocks,
with trailing prose. -/
def assembleDoc : List (List Char × RawEntry) → List Char → List Char
  | [], final => final
  | (p, e) :: rest, final =>
    p ++ (serializeEntry e.id e.c1 e.c2 e.c3 ++ assembleDoc rest final)

/-- The prose segments are unrelated text: the block start marker does
not occur at any position inside them (in particular none of them
contains or straddles into a start marker). -/
def CleanSegs : List (List Char × RawEntry) → List Char → Prop
  | [], final => ∀ i < final.length,
      startMarker.isPrefixOf (final.drop i) = false
  | (p, e) :: rest, final =>
    (∀ i < p.length, startMarker.isPrefixOf
      ((p ++ (serializeEntry e.id e.c1 e.c2 e.c3 ++ assembleDoc rest final)).drop i)
        = false) ∧
    CleanSegs rest final

instance cleanSegsDec : ∀ (segs : List (List Char × RawEntry))
    (final : List Char), Decidable (CleanSegs segs final)
  | [], final => by unfold CleanSegs; infer_instance
  | (p, e) :: rest, final => by
    unfold CleanSegs
    have := cleanSegsDec rest final
    infer_instance

/-! ## Concrete documents and records used by witnesses and examples -/

/-- A truncated block: the start marker and an ID line, nothing more. -/
def truncatedBlockDoc : List Char :=
  startMarker ++ '\n' :: (idLabel ++ (" 99\nand nothing else follows").data)

def entryW1 : RawEntry :=
  { id := ("1739000000001").data, c1 := ("U2FsdGVkX18rst").data,
    c2 := ("U2FsdGVkX19abc").data, c3 := ("U2FsdGVkX19def").data }

def entryW2 : RawEntry :=
  { id := ("1739000000002").data, c1 := ("QQQQ").data,
    c2 := ("RRRR").data, c3 := ("SSSS").data }

def segsW : List (List Char × RawEntry) :=
  [(("Some notes the user wrote.\n").data, entryW1),
   (("\nMore prose in between; not a record.\n").data, entryW2)]

def finalW : List Char := ("\ntrailing text after the records.").data

def docC2 : String :=
  ⟨("SecondaryKey = \"sk\"\n").data ++
    serializeEntry (("77").data) (("AAA").data) (("BBB").data) (("CCC").data)⟩

def entryC2 : ProcessedEntry :=
  { id := ("77"), timestamp := ("[Error]"), notes := ("[Error]"), tags := (""),
    primaryContent := ("AAA"), primaryMetadata := ("BBB") }

def docC5 : String :=
  ⟨("PrimaryKey = \"pk\"\nSecondaryKey = \"sk\"\n").data ++
    serializeEntry (("88").data) (("XXX").data) (("YYY").data) (("ZZZ").data)⟩

def docC6 : String := ("A document without any key header lines.")

def docC10 : String := ("PrimaryKey = \"\"\nSecondaryKey = \"s\"\n")

def docC10w : String := ("PrimaryKey = \"abc\"\n")

/-! ## Theorems -/

theorem lit_append (l s : List Char) : lit l (l ++ s) = some s := by
  induction l with
  | nil => rfl
  | cons c cs ih => simp [lit, ih]

theorem lit_length : ∀ l s r : List Char, lit l s = some r →
    s.length = l.length + r.length := by
  intro l
  induction l with
  | nil => intro s r h; simp [lit] at h; simp [h]
  | cons c cs ih =>
    intro s r h
    cases s with
    | nil => simp [lit] at h
    | cons d ds =>
      simp only [lit] at h
      split at h
      · have := ih ds r h
        simp [List.length_cons, this]; omega
      · exact absurd h (by simp)

theorem lit_none_of_not_pref (l s : List Char) (h : l.isPrefixOf s = false) :
    lit l s = none := by
  induction l generalizing s with
  | nil => simp [List.isPrefixOf] at h
  | cons c cs ih =>
    cases s with
    | nil => rfl
    | cons d ds =>
      simp only [List.isPrefixOf, Bool.and_eq_false_iff] at h
      simp only [lit]
      rcases h with h | h
      · have : ¬ d = c := by
          intro he; subst he; simp at h
        simp [this]
      · by_cases hdc : d = c
        · simp [hdc, ih ds h]
        · simp [hdc]

theorem lit_prefix_of_some (l s r : List Char) (h : lit l s = some r) :
    s = l ++ r := by
  induction l generalizing s with
  | nil => simp [lit] at h; simp [h]
  | cons c cs ih =>
    cases s with
    | nil => simp [lit] at h
    | cons d ds =>
      simp only [lit] at h
      split at h
      · rename_i hd
        simp [hd, ih ds h]
      · exact absurd h (by simp)

theorem xorB_length (a b : List Nat) : (xorB a b).length = min a.length b.length := by
  simp [xorB]

theorem xorB_cancel : ∀ a b : List Nat, a.length = b.length →
    xorB a (xorB a b) = b := by
  intro a
  induction a with
  | nil => intro b h; cases b; · rfl
           · simp at h
  | cons x xs ih =>
    intro b h
    cases b with
    | nil => simp at h
    | cons y ys =>
      simp only [xorB, List.zipWith] at *
      have hx : x ^^^ (x ^^^ y) = y := by
        rw [← Nat.xor_assoc, Nat.xor_self, Nat.zero_xor]
      simp [ih ys (by simpa using h)]
      exact hx

theorem xor_lt_256 (a b : Nat) (ha : a < 256) (hb : b < 256) : a ^^^ b < 256 := by
  have h256 : (256 : Nat) = 2 ^ 8 := by norm_num
  rw [h256] at *
  exact Nat.xor_lt_two_pow ha hb

theorem xorB_lt : ∀ a b : List Nat, (∀ x ∈ a, x < 256) → (∀ x ∈ b, x < 256) →
    ∀ x ∈ xorB a b, x < 256 := by
  intro a
  induction a with
  | nil => intro b _ _ x hx; simp [xorB] at hx
  | cons c cs ih =>
    intro b ha hb x hx
    cases b with
    | nil => simp [xorB] at hx
    | cons d ds =>
      simp only [xorB, List.zipWith, List.mem_cons] at hx
      rcases hx with hx | hx
      · subst hx
        exact xor_lt_256 _ _ (ha c (by simp)) (hb d (by simp))
      · exact ih ds (fun y hy => ha y (by simp [hy]))
          (fun y hy => hb y (by simp [hy])) x hx

theorem b64Index_b64Char (n : Nat) (h : n < 64) : b64Index (b64Char n) = some n := by
  interval_cases n <;> rfl

theorem b64Char_ne_eq (n : Nat) (h : n < 64) : (b64Char n = '=') = False := by
  interval_cases n <;> simp [b64Char, b64Tab]

theorem b64_roundtrip : ∀ bs : List Nat, (∀ x ∈ bs, x < 256) →
    b64Decode (b64Encode bs) = some bs := by
  intro bs
  induction bs using b64Encode.induct with
  | case1 => intro _; rfl
  | case2 a =>
    intro h
    have ha : a < 256 := h a (by simp)
    have e1 : a / 4 * 4 + a % 4 * 16 / 16 = a := by omega
    simp only [b64Encode, b64Decode]
    rw [b64Index_b64Char (a / 4) (by omega), b64Index_b64Char (a % 4 * 16) (by omega)]
    simp
    omega
  | case3 a b =>
    intro h
    have ha : a < 256 := h a (by simp)
    have hb : b < 256 := h b (by simp)
    have hne : (b64Char (b % 16 * 4) = '=') = False := b64Char_ne_eq _ (by omega)
    have e1 : a / 4 * 4 + (a % 4 * 16 + b / 16) / 16 = a := by omega
    have e2 : (a % 4 * 16 + b / 16) % 16 * 16 + b % 16 * 4 / 4 = b := by omega
    simp only [b64Encode, b64Decode]
    rw [b64Index_b64Char (a / 4) (by omega),
      b64Index_b64Char (a % 4 * 16 + b / 16) (by omega)]
    simp [hne, b64Index_b64Char (b % 16 * 4) (by omega)]
    omega
  | case4 a b c rest ih =>
    intro h
    have ha : a < 256 := h a (by simp)
    have hb : b < 256 := h b (by simp)
    have hc : c < 256 := h c (by simp)
    have hrest : ∀ x ∈ rest, x < 256 := fun x hx => h x (by simp [hx])
    have hne1 : (b64Char (b % 16 * 4 + c / 64) = '=') = False :=
      b64Char_ne_eq _ (by omega)
    have hne2 : (b64Char (c % 64) = '=') = False := b64Char_ne_eq _ (by omega)
    have e1 : a / 4 * 4 + (a % 4 * 16 + b / 16) / 16 = a := by omega
    have e2 : (a % 4 * 16 + b / 16) % 16 * 16 + (b % 16 * 4 + c / 64) / 4 = b := by
      omega
    have e3 : (b % 16 * 4 + c / 64) % 4 * 64 + c % 64 = c := by omega
    simp only [b64Encode, b64Decode]
    rw [b64Index_b64Char (a / 4) (by omega),
      b64Index_b64Char (a % 4 * 16 + b / 16) (by omega)]
    simp [hne1, hne2, b64Index_b64Char (b % 16 * 4 + c / 64) (by omega),
      b64Index_b64Char (c % 64) (by omega), ih hrest]
    omega

theorem replicate_getLast (n a : Nat) (h : 1 ≤ n) :
    (List.replicate n a).getLast? = some a := by
  cases n with
  | zero => omega
  | succ m =>
    rw [List.replicate_succ']
    exact List.getLast?_concat _

theorem unpad_pad (bs : List Nat) : unpadPKCS7 (padPKCS7 bs) = bs := by
  have hn : 1 ≤ 16 - bs.length % 16 := by omega
  have hrep : List.replicate (16 - bs.length % 16) (16 - bs.length % 16) ≠ [] := by
    simp
    omega
  unfold unpadPKCS7 padPKCS7
  rw [List.getLast?_append_of_ne_nil _ hrep, replicate_getLast _ _ hn]
  simp only [List.length_append, List.length_replicate, Option.getD_some]
  have he : bs.length + (16 - bs.length % 16) - (16 - bs.length % 16) = bs.length := by
    omega
  rw [he, List.take_left]

theorem pad_mod16 (bs : List Nat) : (padPKCS7 bs).length % 16 = 0 := by
  simp only [padPKCS7, List.length_append, List.length_replicate]
  omega

theorem pad_lt (bs : List Nat) (h : ∀ x ∈ bs, x < 256) :
    ∀ x ∈ padPKCS7 bs, x < 256 := by
  intro x hx
  simp only [padPKCS7, List.mem_append, List.mem_replicate] at hx
  rcases hx with hx | hx
  · exact h x hx
  · omega

theorem chunk16F_irrel : ∀ f g l, l.length ≤ f → l.length ≤ g →
    chunk16F f l = chunk16F g l := by
  intro f
  induction f with
  | zero =>
    intro g l hf _
    have : l = [] := List.eq_nil_of_length_eq_zero (by omega)
    subst this
    cases g <;> rfl
  | succ f ih =>
    intro g l hf hg
    cases l with
    | nil => cases g <;> rfl
    | cons c cs =>
      cases g with
      | zero => simp at hg
      | succ g =>
        simp only [chunk16F]
        congr 1
        apply ih
        · simp at hf ⊢; omega
        · simp at hg ⊢; omega

theorem chunk16_join : ∀ fuel l, l.length ≤ fuel → (chunk16F fuel l).flatten = l := by
  intro fuel
  induction fuel with
  | zero =>
    intro l h
    have : l = [] := List.eq_nil_of_length_eq_zero (by omega)
    simp [this, chunk16F]
  | succ f ih =>
    intro l h
    cases l with
    | nil => rfl
    | cons c cs =>
      simp only [chunk16F, List.flatten]
      rw [ih ((c :: cs).drop 16)
        (by simp only [List.length_drop, List.length_cons] at h ⊢; omega)]
      exact List.take_append_drop 16 (c :: cs)

theorem chunk16_all16 : ∀ fuel l, l.length ≤ fuel → l.length % 16 = 0 →
    ∀ b ∈ chunk16F fuel l, b.length = 16 := by
  intro fuel
  induction fuel with
  | zero => intro l _ _ b hb; simp [chunk16F] at hb
  | succ f ih =>
    intro l hf hm b hb
    cases l with
    | nil => simp [chunk16F] at hb
    | cons c cs =>
      simp only [chunk16F, List.mem_cons] at hb
      simp only [List.length_cons] at hf hm
      have hlen : cs.length + 1 ≥ 16 := by
        rcases Nat.lt_or_ge (cs.length + 1) 16 with hc | hc
        · rw [Nat.mod_eq_of_lt hc] at hm
          omega
        · exact hc
      rcases hb with hb | hb
      · subst hb
        simp only [List.length_take, List.length_cons]
        omega
      · apply ih (List.drop 16 (c :: cs)) _ _ b hb
        · simp only [List.length_drop, List.length_cons]
          omega
        · simp only [List.length_drop, List.length_cons]
          omega

theorem chunk16_all_lt : ∀ fuel l, (∀ x ∈ l, x < 256) →
    ∀ b ∈ chunk16F fuel l, ∀ x ∈ b, x < 256 := by
  intro fuel
  induction fuel with
  | zero => intro l _ b hb; simp [chunk16F] at hb
  | succ f ih =>
    intro l hl b hb
    cases l with
    | nil => simp [chunk16F] at hb
    | cons c cs =>
      simp only [chunk16F, List.mem_cons] at hb
      rcases hb with hb | hb
      · subst hb
        intro x hx
        exact hl x (List.mem_of_mem_take hx)
      · exact ih _ (fun x hx => hl x (List.mem_of_mem_drop hx)) b hb

theorem cbcEncBlocks_good (P : CipherPrims) (hP : GoodPrims P) (k : List Nat) :
    ∀ bs prev, prev.length = 16 → (∀ x ∈ prev, x < 256) →
    (∀ b ∈ bs, b.length = 16 ∧ ∀ x ∈ b, x < 256) →
    ∀ c ∈ cbcEncBlocks P k prev bs, c.length = 16 ∧ ∀ x ∈ c, x < 256 := by
  intro bs
  induction bs with
  | nil => intro prev _ _ _ c hc; simp [cbcEncBlocks] at hc
  | cons b bs ih =>
    intro prev hp hpl hbs c hc
    obtain ⟨hb16, hblt⟩ := hbs b (by simp)
    have hx16 : (xorB prev b).length = 16 := by rw [xorB_length]; omega
    have hxlt : ∀ x ∈ xorB prev b, x < 256 := xorB_lt prev b hpl hblt
    have hc16 : (P.encBlock k (xorB prev b)).length = 16 := hP.1 k _ hx16
    have hclt : ∀ x ∈ P.encBlock k (xorB prev b), x < 256 :=
      hP.2.1 k _ hx16 hxlt
    simp only [cbcEncBlocks, List.mem_cons] at hc
    rcases hc with hc | hc
    · subst hc; exact ⟨hc16, hclt⟩
    · exact ih _ hc16 hclt (fun x hx => hbs x (by simp [hx])) c hc

theorem cbcDec_cbcEnc (P : CipherPrims) (hP : GoodPrims P) (k : List Nat) :
    ∀ bs prev, prev.length = 16 → (∀ x ∈ prev, x < 256) →
    (∀ b ∈ bs, b.length = 16 ∧ ∀ x ∈ b, x < 256) →
    cbcDecBlocks P k prev (cbcEncBlocks P k prev bs) = bs := by
  intro bs
  induction bs with
  | nil => intro prev _ _ _; rfl
  | cons b bs ih =>
    intro prev hp hpl hbs
    obtain ⟨hb16, hblt⟩ := hbs b (by simp)
    have hx16 : (xorB prev b).length = 16 := by rw [xorB_length]; omega
    have hxlt : ∀ x ∈ xorB prev b, x < 256 := xorB_lt prev b hpl hblt
    have hc16 : (P.encBlock k (xorB prev b)).length = 16 := hP.1 k _ hx16
    have hclt : ∀ x ∈ P.encBlock k (xorB prev b), x < 256 :=
      hP.2.1 k _ hx16 hxlt
    simp only [cbcEncBlocks, cbcDecBlocks, List.cons.injEq]
    constructor
    · rw [hP.2.2.1 k _ hx16]
      exact xorB_cancel prev b (by omega)
    · exact ih _ hc16 hclt (fun x hx => hbs x (by simp [hx]))

theorem saltedMagic_lt : ∀ x ∈ saltedMagic, x < 256 := by decide

theorem saltedMagic_len : saltedMagic.length = 8 := by rfl

theorem chunk16_flatten_blocks : ∀ blocks : List (List Nat),
    (∀ b ∈ blocks, b.length = 16) → chunk16 blocks.flatten = blocks := by
  have key : ∀ fuel (blocks : List (List Nat)), blocks.flatten.length ≤ fuel →
      (∀ b ∈ blocks, b.length = 16) → chunk16F fuel blocks.flatten = blocks := by
    intro fuel
    induction fuel with
    | zero =>
      intro blocks hf hall
      cases blocks with
      | nil => rfl
      | cons b bs =>
        have hb := hall b (by simp)
        simp only [List.flatten, List.length_append] at hf
        omega
    | succ f ih =>
      intro blocks hf hall
      cases blocks with
      | nil => rfl
      | cons b bs =>
        have hb := hall b (by simp)
        obtain ⟨hd, tl, hbe⟩ : ∃ hd tl, b = hd :: tl := by
          cases b with
          | nil => simp at hb
          | cons hd tl => exact ⟨hd, tl, rfl⟩
        have hflat : (b :: bs).flatten = b ++ bs.flatten := rfl
        rw [hflat]
        rw [hflat] at hf
        simp only [List.length_append, hb] at hf
        have hne : b ++ bs.flatten = hd :: (tl ++ bs.flatten) := by simp [hbe]
        rw [hne]
        simp only [chunk16F]
        rw [← hne]
        rw [List.take_left' hb, List.drop_left' hb]
        congr 1
        apply ih
        · omega
        · exact fun x hx => hall x (by simp [hx])
  intro blocks hall
  exact key blocks.flatten.length blocks (Nat.le_refl _) hall

/-- Round trip of the byte-level cipher: decrypting an encryption with
the same secret recovers the plaintext exactly. -/
theorem decrypt_encrypt_bytes (P : CipherPrims) (hP : GoodPrims P)
    (pt : List Nat) (key : String) (salt : List Nat)
    (hpt : ∀ x ∈ pt, x < 256) (hs8 : salt.length = 8)
    (hslt : ∀ x ∈ salt, x < 256) :
    decryptBytes P (encryptBytes P pt key salt) key = some pt := by
  obtain ⟨hiv16, hivlt⟩ := hP.2.2.2 key salt
  have hchunks : ∀ b ∈ chunk16 (padPKCS7 pt), b.length = 16 ∧ ∀ x ∈ b, x < 256 := by
    intro b hb
    refine ⟨?_, ?_⟩
    · exact chunk16_all16 _ _ (Nat.le_refl _)
        (pad_mod16 pt) b hb
    · exact chunk16_all_lt _ _ (pad_lt pt hpt) b hb
  have hctgood : ∀ c ∈ cbcEncBlocks P (P.kdf key salt).1 (P.kdf key salt).2
      (chunk16 (padPKCS7 pt)), c.length = 16 ∧ ∀ x ∈ c, x < 256 :=
    cbcEncBlocks_good P hP _ _ _ hiv16 hivlt hchunks
  have hctlt : ∀ x ∈ (cbcEncBlocks P (P.kdf key salt).1 (P.kdf key salt).2
      (chunk16 (padPKCS7 pt))).flatten, x < 256 := by
    intro x hx
    rw [List.mem_flatten] at hx
    obtain ⟨s, hs, hxs⟩ := hx
    exact (hctgood s hs).2 x hxs
  have hbytes : ∀ x ∈ saltedMagic ++ salt ++ (cbcEncBlocks P (P.kdf key salt).1
      (P.kdf key salt).2 (chunk16 (padPKCS7 pt))).flatten, x < 256 := by
    intro x hx
    simp only [List.mem_append] at hx
    rcases hx with (hx | hx) | hx
    · exact saltedMagic_lt x hx
    · exact hslt x hx
    · exact hctlt x hx
  unfold encryptBytes decryptBytes
  have htake8 : (saltedMagic ++ salt ++ (cbcEncBlocks P (P.kdf key salt).1
      (P.kdf key salt).2 (chunk16 (padPKCS7 pt))).flatten).take 8 = saltedMagic := by
    rw [List.append_assoc, List.take_left' saltedMagic_len]
  have hdrop8 : (saltedMagic ++ salt ++ (cbcEncBlocks P (P.kdf key salt).1
      (P.kdf key salt).2 (chunk16 (padPKCS7 pt))).flatten).drop 8
      = salt ++ (cbcEncBlocks P (P.kdf key salt).1
      (P.kdf key salt).2 (chunk16 (padPKCS7 pt))).flatten := by
    rw [List.append_assoc, List.drop_left' saltedMagic_len]
  have hdrop16 : (saltedMagic ++ salt ++ (cbcEncBlocks P (P.kdf key salt).1
      (P.kdf key salt).2 (chunk16 (padPKCS7 pt))).flatten).drop 16
      = (cbcEncBlocks P (P.kdf key salt).1
      (P.kdf key salt).2 (chunk16 (padPKCS7 pt))).flatten := by
    rw [List.append_assoc, show (16 : Nat) = 8 + 8 from rfl, ← List.drop_drop,
      List.drop_left' saltedMagic_len, List.drop_left' hs8]
  simp only [b64_roundtrip _ hbytes]
  rw [if_pos htake8, hdrop8, hdrop16, List.take_left' hs8]
  rw [chunk16_flatten_blocks _ (fun b hb => (hctgood b hb).1)]
  rw [cbcDec_cbcEnc P hP _ _ _ hiv16 hivlt hchunks]
  rw [show (chunk16 (padPKCS7 pt)).flatten = padPKCS7 pt from
    chunk16_join _ _ (Nat.le_refl _), unpad_pad]

theorem ks16_len (k : List Nat) : (ks16 k).length = 16 := by
  simp only [ks16, List.length_take, List.length_append, List.length_map,
    List.length_replicate]
  omega

theorem ks16_lt (k : List Nat) : ∀ x ∈ ks16 k, x < 256 := by
  intro x hx
  have hx2 := List.mem_of_mem_take hx
  simp only [List.mem_append, List.mem_map, List.mem_replicate] at hx2
  rcases hx2 with ⟨y, _, hy⟩ | ⟨_, hx0⟩
  · omega
  · omega

theorem goodXorPrims : GoodPrims xorPrims := by
  refine ⟨?_, ?_, ?_, ?_⟩
  · intro k b hb
    show (xorB (ks16 k) b).length = 16
    rw [xorB_length, ks16_len, hb]
    omega
  · intro k b hb hlt
    exact xorB_lt _ _ (ks16_lt k) hlt
  · intro k b hb
    show xorB (ks16 k) (xorB (ks16 k) b) = b
    exact xorB_cancel _ _ (by rw [ks16_len, hb])
  · intro key salt
    constructor
    · show ((salt.map (· % 256) ++ List.replicate 16 0).take 16).length = 16
      simp only [List.length_take, List.length_append, List.length_map,
        List.length_replicate]
      omega
    · intro x hx
      have hx2 := List.mem_of_mem_take hx
      simp only [List.mem_append, List.mem_map, List.mem_replicate] at hx2
      rcases hx2 with ⟨y, _, hy⟩ | ⟨_, hx0⟩
      · omega
      · omega

theorem strToBytes_lt (s : String) (h : ∀ c ∈ s.data, c.toNat < 256) :
    ∀ x ∈ strToBytes s, x < 256 := by
  intro x hx
  simp only [strToBytes, List.mem_map] at hx
  obtain ⟨c, hc, hcx⟩ := hx
  subst hcx
  exact h c hc

theorem bytesToStr_strToBytes (s : String) : bytesToStr (strToBytes s) = s := by
  simp only [bytesToStr, strToBytes, List.map_map]
  have : (Char.ofNat ∘ Char.toNat) = id := by
    funext c
    simp [Function.comp, Char.ofNat_toNat]
  rw [this, List.map_id]

/-! ## RecordCodec lemmas -/

theorem takeWhile_split (p : Char → Bool) : ∀ (a b : List Char),
    (∀ c ∈ a, p c = true) → (∀ c, b.head? = some c → p c = false) →
    (a ++ b).takeWhile p = a := by
  intro a
  induction a with
  | nil =>
    intro b _ hb
    cases b with
    | nil => rfl
    | cons c t =>
      simp only [List.nil_append, List.takeWhile]
      rw [hb c rfl]
  | cons x xs ih =>
    intro b ha hb
    simp only [List.cons_append, List.takeWhile]
    rw [ha x (by simp)]
    simp [ih b (fun c hc => ha c (by simp [hc])) hb]

theorem dropWhile_split (p : Char → Bool) : ∀ (a b : List Char),
    (∀ c ∈ a, p c = true) → (∀ c, b.head? = some c → p c = false) →
    (a ++ b).dropWhile p = b := by
  intro a
  induction a with
  | nil =>
    intro b _ hb
    cases b with
    | nil => rfl
    | cons c t =>
      simp only [List.nil_append, List.dropWhile]
      rw [hb c rfl]
  | cons x xs ih =>
    intro b ha hb
    simp only [List.cons_append, List.dropWhile]
    rw [ha x (by simp)]
    exact ih b (fun c hc => ha c (by simp [hc])) hb

theorem serializeEntry_unfold (idv c1 c2 c3 q : List Char) :
    serializeEntry idv c1 c2 c3 ++ q =
      startMarker ++ '\n' :: (idLabel ++ ' ' :: (idv ++ '\n' ::
        (contentLabel ++ ' ' :: (encTag ++ (c1 ++ '\n' ::
        (metadataLabel ++ ' ' :: (encTag ++ (c2 ++ '\n' ::
        (referenceLabel ++ ' ' :: (encTag ++ (c3 ++ '\n' ::
        (endMarker ++ '\n' :: q)))))))))))) := by
  simp [serializeEntry, entryLines, joinLines]

theorem wsThenNl_nl (X : List Char)
    (hx : ∀ c, X.head? = some c → isWsChar c = false) :
    wsThenNl ('\n' :: X) = some X := by
  unfold wsThenNl
  have ht : ('\n' :: X).takeWhile isWsChar = ['\n'] := by
    have : ('\n' :: X) = ['\n'] ++ X := rfl
    rw [this]
    exact takeWhile_split isWsChar ['\n'] X (by intro c hc; simp at hc; simp [hc, isWsChar]) hx
  rw [ht]
  simp

theorem dropWhile_sp (X : List Char)
    (hx : ∀ c, X.head? = some c → isWsChar c = false) :
    (' ' :: X).dropWhile isWsChar = X := by
  have : (' ' :: X) = [' '] ++ X := rfl
  rw [this]
  exact dropWhile_split isWsChar [' '] X
    (by intro c hc; simp at hc; simp [hc, isWsChar]) hx

theorem capLine_field (f rest : List Char) (hf : f ≠ [])
    (hnl : ∀ c ∈ f, ¬ c = '\n') :
    capLine (f ++ '\n' :: rest) = some (f, rest) := by
  have ht : (f ++ '\n' :: rest).takeWhile (fun c => ¬ c = '\n') = f := by
    have he : f ++ '\n' :: rest = f ++ (['\n'] ++ rest) := by simp
    rw [he]
    apply takeWhile_split
    · intro c hc
      simp [hnl c hc]
    · intro c hc
      simp at hc
      subst hc
      decide
  have hd : List.drop f.length (f ++ '\n' :: rest) = '\n' :: rest :=
    List.drop_left' rfl
  have h1 : 1 ≤ f.length := by
    cases f with
    | nil => simp at hf
    | cons a t => simp
  simp only [capLine, ht, hd, h1, if_true]

theorem wsCapLine_sp (idv rest : List Char) (hid : idv ≠ [])
    (hnl : ∀ c ∈ idv, ¬ c = '\n')
    (hh : ∀ c, idv.head? = some c → isWsChar c = false) :
    wsCapLine (' ' :: (idv ++ '\n' :: rest)) = some (idv, rest) := by
  unfold wsCapLine
  rw [dropWhile_sp _ (by
    intro c hc
    cases idv with
    | nil => simp at hid
    | cons a t =>
      simp at hc
      exact hh c (by simp [hc]))]
  exact capLine_field idv rest hid hnl

theorem matchBlockAt_serialized (e : RawEntry) (q : List Char)
    (hg : goodEntry e) :
    matchBlockAt (serializeEntry e.id e.c1 e.c2 e.c3 ++ q) =
      some (e, '\n' :: q) := by
  obtain ⟨⟨hid1, hid2⟩, ⟨hc11, hc12⟩, ⟨hc21, hc22⟩, ⟨hc31, hc32⟩, hidh⟩ := hg
  rw [serializeEntry_unfold]
  unfold matchBlockAt
  rw [lit_append]
  simp only [Option.bind]
  rw [wsThenNl_nl _ (by intro c hc; rw [show idLabel = '*' :: (("*ID:**").data) from rfl] at hc; simp at hc; subst hc; decide)]
  simp only [Option.bind]
  rw [lit_append]
  simp only [Option.bind]
  rw [wsCapLine_sp _ _ hid1 hid2 hidh]
  simp only [Option.bind]
  rw [lit_append]
  simp only [Option.bind]
  rw [dropWhile_sp _ (by intro c hc; rw [show encTag ++ (e.c1 ++ '\n' :: (metadataLabel ++ ' ' :: (encTag ++ (e.c2 ++ '\n' :: (referenceLabel ++ ' ' :: (encTag ++ (e.c3 ++ '\n' :: (endMarker ++ '\n' :: q)))))))) = 'E' :: (("NC:").data ++ (e.c1 ++ '\n' :: (metadataLabel ++ ' ' :: (encTag ++ (e.c2 ++ '\n' :: (referenceLabel ++ ' ' :: (encTag ++ (e.c3 ++ '\n' :: (endMarker ++ '\n' :: q))))))))) from rfl] at hc; simp at hc; subst hc; decide)]
  rw [lit_append]
  simp only [Option.bind]
  rw [capLine_field _ _ hc11 hc12]
  simp only [Option.bind]
  rw [lit_append]
  simp only [Option.bind]
  rw [dropWhile_sp _ (by intro c hc; rw [show encTag ++ (e.c2 ++ '\n' :: (referenceLabel ++ ' ' :: (encTag ++ (e.c3 ++ '\n' :: (endMarker ++ '\n' :: q))))) = 'E' :: (("NC:").data ++ (e.c2 ++ '\n' :: (referenceLabel ++ ' ' :: (encTag ++ (e.c3 ++ '\n' :: (endMarker ++ '\n' :: q)))))) from rfl] at hc; simp at hc; subst hc; decide)]
  rw [lit_append]
  simp only [Option.bind]
  rw [capLine_field _ _ hc21 hc22]
  simp only [Option.bind]
  rw [lit_append]
  simp only [Option.bind]
  rw [dropWhile_sp _ (by intro c hc; rw [show encTag ++ (e.c3 ++ '\n' :: (endMarker ++ '\n' :: q)) = 'E' :: (("NC:").data ++ (e.c3 ++ '\n' :: (endMarker ++ '\n' :: q))) from rfl] at hc; simp at hc; subst hc; decide)]
  rw [lit_append]
  simp only [Option.bind]
  rw [capLine_field _ _ hc31 hc32]
  simp only [Option.bind]
  rw [lit_append]
  rfl

theorem dropWhile_len_le (p : Char → Bool) (l : List Char) :
    (l.dropWhile p).length ≤ l.length := by
  induction l with
  | nil => simp
  | cons c t ih =>
    simp only [List.dropWhile]
    split
    · exact Nat.le_trans ih (by simp)
    · simp

theorem takeWhile_len_le (p : Char → Bool) (l : List Char) :
    (l.takeWhile p).length ≤ l.length := by
  induction l with
  | nil => simp
  | cons c t ih =>
    simp only [List.takeWhile]
    split
    · simpa using ih
    · simp

theorem wsThenNl_le (s r : List Char) (h : wsThenNl s = some r) :
    r.length ≤ s.length := by
  unfold wsThenNl at h
  split at h
  · simp only [Option.some.injEq] at h
    subst h
    simp
  · exact absurd h (by simp)

theorem capLine_lt (s : List Char) (p : List Char × List Char)
    (h : capLine s = some p) : p.2.length < s.length := by
  obtain ⟨pc, pr⟩ := p
  unfold capLine at h
  split at h
  · rename_i r heq
    split at h
    · rename_i h1
      simp at h
      obtain ⟨hcap, hrest⟩ := h
      subst hrest
      have hlen := congrArg List.length heq
      simp only [List.length_drop, List.length_cons] at hlen
      have hle : (s.takeWhile (fun c => ¬ c = '\n')).length ≤ s.length :=
        takeWhile_len_le _ s
      simp only []
      omega
    · exact absurd h (by simp)
  · exact absurd h (by simp)

theorem wsCapLine_lt (s : List Char) (p : List Char × List Char)
    (h : wsCapLine s = some p) : p.2.length < s.length := by
  unfold wsCapLine at h
  have h1 := capLine_lt _ _ h
  have h2 := dropWhile_len_le isWsChar s
  omega

theorem matchBlockAt_lt (s : List Char) (fr : RawEntry × List Char)
    (h : matchBlockAt s = some fr) : fr.2.length < s.length := by
  unfold matchBlockAt at h
  rw [Option.bind_eq_some] at h
  obtain ⟨r1, h1, h⟩ := h
  rw [Option.bind_eq_some] at h
  obtain ⟨r2, h2, h⟩ := h
  rw [Option.bind_eq_some] at h
  obtain ⟨r3, h3, h⟩ := h
  rw [Option.bind_eq_some] at h
  obtain ⟨p1, h4, h⟩ := h
  rw [Option.bind_eq_some] at h
  obtain ⟨r5, h5, h⟩ := h
  rw [Option.bind_eq_some] at h
  obtain ⟨r6, h6, h⟩ := h
  rw [Option.bind_eq_some] at h
  obtain ⟨p2, h7, h⟩ := h
  rw [Option.bind_eq_some] at h
  obtain ⟨r8, h8, h⟩ := h
  rw [Option.bind_eq_some] at h
  obtain ⟨r9, h9, h⟩ := h
  rw [Option.bind_eq_some] at h
  obtain ⟨p3, h10, h⟩ := h
  rw [Option.bind_eq_some] at h
  obtain ⟨r11, h11, h⟩ := h
  rw [Option.bind_eq_some] at h
  obtain ⟨r12, h12, h⟩ := h
  rw [Option.bind_eq_some] at h
  obtain ⟨p4, h13, h⟩ := h
  rw [Option.map_eq_some'] at h
  obtain ⟨rest, h14, hfr⟩ := h
  have l1 := lit_length _ _ _ h1
  have hsm : startMarker.length = 31 := rfl
  have l2 := wsThenNl_le _ _ h2
  have l3 := lit_length _ _ _ h3
  have l4 := wsCapLine_lt _ _ h4
  have l5 := lit_length _ _ _ h5
  have l6 := lit_length _ _ _ h6
  have l6d := dropWhile_len_le isWsChar r5
  have l7 := capLine_lt _ _ h7
  have l8 := lit_length _ _ _ h8
  have l9 := lit_length _ _ _ h9
  have l9d := dropWhile_len_le isWsChar r8
  have l10 := capLine_lt _ _ h10
  have l11 := lit_length _ _ _ h11
  have l12 := lit_length _ _ _ h12
  have l12d := dropWhile_len_le isWsChar r11
  have l13 := capLine_lt _ _ h13
  have l14 := lit_length _ _ _ h14
  have hfr2 : fr.2 = rest := by rw [← hfr]
  rw [hfr2]
  omega

theorem matchBlockAt_none_of_no_marker (s : List Char)
    (h : startMarker.isPrefixOf s = false) : matchBlockAt s = none := by
  unfold matchBlockAt
  rw [lit_none_of_not_pref _ _ h]
  rfl

theorem scanBlocksF_irrel : ∀ f g s, s.length ≤ f → s.length ≤ g →
    scanBlocksF f s = scanBlocksF g s := by
  intro f
  induction f with
  | zero =>
    intro g s hf _
    have : s = [] := List.eq_nil_of_length_eq_zero (by omega)
    subst this
    cases g with
    | zero => rfl
    | succ g => rfl
  | succ f ih =>
    intro g s hf hg
    cases s with
    | nil =>
      cases g with
      | zero => rfl
      | succ g => rfl
    | cons c t =>
      cases g with
      | zero => simp at hg
      | succ g =>
        simp only [scanBlocksF]
        cases hm : matchBlockAt (c :: t) with
        | some fr =>
          have hlt := matchBlockAt_lt _ _ hm
          simp only [List.length_cons] at hf hg hlt
          show fr.1 :: scanBlocksF f fr.2 = fr.1 :: scanBlocksF g fr.2
          rw [ih g fr.2 (by omega) (by omega)]
        | none =>
          simp only [List.length_cons] at hf hg
          show scanBlocksF f t = scanBlocksF g t
          exact ih g t (by omega) (by omega)

theorem scanBlocks_skip (c : Char) (t : List Char)
    (h : startMarker.isPrefixOf (c :: t) = false) :
    scanBlocks (c :: t) = scanBlocks t := by
  unfold scanBlocks
  simp only [List.length_cons, scanBlocksF,
    matchBlockAt_none_of_no_marker _ h]

theorem scanBlocks_prose : ∀ (p q : List Char),
    (∀ i < p.length, startMarker.isPrefixOf ((p ++ q).drop i) = false) →
    scanBlocks (p ++ q) = scanBlocks q := by
  intro p
  induction p with
  | nil => intro q _; rfl
  | cons c t ih =>
    intro q h
    have h0 := h 0 (by simp)
    simp only [List.drop_zero] at h0
    rw [List.cons_append, scanBlocks_skip c (t ++ q) h0]
    apply ih
    intro i hi
    have := h (i + 1) (by simp; omega)
    simpa using this

theorem serializeEntry_ge (idv c1 c2 c3 q : List Char) :
    (serializeEntry idv c1 c2 c3 ++ q).length ≥ q.length + 2 := by
  rw [serializeEntry_unfold]
  simp only [List.length_append, List.length_cons]
  have h31 : startMarker.length = 31 := rfl
  omega

theorem marker_not_prefix_nl (q : List Char) :
    startMarker.isPrefixOf ('\n' :: q) = false := by
  rw [show startMarker = '<' :: (("!-- Encrypted Prompt Entry -->").data)
    from rfl]
  simp [List.isPrefixOf]

theorem scanBlocks_block (e : RawEntry) (q : List Char) (hg : goodEntry e) :
    scanBlocks (serializeEntry e.id e.c1 e.c2 e.c3 ++ q) =
      e :: scanBlocks q := by
  have hge := serializeEntry_ge e.id e.c1 e.c2 e.c3 q
  obtain ⟨M, hM⟩ : ∃ M, (serializeEntry e.id e.c1 e.c2 e.c3 ++ q).length
      = M + 2 := ⟨(serializeEntry e.id e.c1 e.c2 e.c3 ++ q).length - 2, by omega⟩
  have hMq : q.length ≤ M := by omega
  unfold scanBlocks
  rw [hM]
  show scanBlocksF (M + 1 + 1) _ = _
  simp only [scanBlocksF, matchBlockAt_serialized e q hg]
  congr 1
  show scanBlocksF (M + 1) ('\n' :: q) = _
  simp only [scanBlocksF, matchBlockAt_none_of_no_marker _ (marker_not_prefix_nl q)]
  exact scanBlocksF_irrel _ _ q (by omega) (Nat.le_refl _)

theorem scanBlocks_nil_of_clean (final : List Char)
    (h : ∀ i < final.length, startMarker.isPrefixOf (final.drop i) = false) :
    scanBlocks final = [] := by
  have := scanBlocks_prose final [] (by simpa using h)
  simpa using this

theorem scanBlocks_assemble : ∀ (segs : List (List Char × RawEntry))
    (final : List Char), (∀ pe ∈ segs, goodEntry pe.2) →
    CleanSegs segs final →
    scanBlocks (assembleDoc segs final) = segs.map (fun pe => pe.2) := by
  intro segs
  induction segs with
  | nil =>
    intro final _ hclean
    exact scanBlocks_nil_of_clean final hclean
  | cons pe rest ih =>
    obtain ⟨p, e⟩ := pe
    intro final hgood hclean
    obtain ⟨hp, hrest⟩ := hclean
    show scanBlocks (p ++ (serializeEntry e.id e.c1 e.c2 e.c3 ++
      assembleDoc rest final)) = e :: rest.map (fun pe => pe.2)
    rw [scanBlocks_prose _ _ hp,
      scanBlocks_block e _ (hgood (p, e) (by simp)),
      ih final (fun x hx => hgood x (by simp [hx])) hrest]

/-! ## Redactor lemmas -/

theorem countDigits_append (a b : List Char) :
    countDigits (a ++ b) = countDigits a + countDigits b := by
  simp [countDigits, List.filter_append]

theorem countDigits_all (l : List Char) (h : ∀ c ∈ l, c.isDigit = true) :
    countDigits l = l.length := by
  unfold countDigits
  rw [List.filter_eq_self.mpr h]

theorem digitsN_spec : ∀ (n : Nat) (s : List Char) (pr : List Char × List Char),
    digitsN n s = some pr →
    s = pr.1 ++ pr.2 ∧ pr.1.length = n ∧ ∀ c ∈ pr.1, c.isDigit = true := by
  intro n
  induction n with
  | zero =>
    intro s pr h
    simp only [digitsN, Option.some.injEq] at h
    subst h
    simp
  | succ n ih =>
    intro s pr h
    cases s with
    | nil => simp [digitsN] at h
    | cons c r =>
      simp only [digitsN] at h
      split at h
      · cases hd : digitsN n r with
        | none => rw [hd] at h; simp at h
        | some a =>
          rw [hd] at h
          simp at h
          obtain ⟨ha1, ha2, ha3⟩ := ih r a hd
          subst h
          refine ⟨by simp [ha1], by simp [ha2], ?_⟩
          intro x hx
          simp at hx
          rcases hx with hx | hx
          · subst hx; assumption
          · exact ha3 x hx
      · exact absurd h (by simp)

theorem altOptChar_spec (p : Char → Bool) (s : List Char)
    (pr : List Char × List Char) (h : pr ∈ altOptChar p s) :
    s = pr.1 ++ pr.2 ∧ (pr.1 = [] ∨ ∃ c, pr.1 = [c] ∧ p c = true) := by
  cases s with
  | nil =>
    simp [altOptChar] at h
    subst h
    simp
  | cons c r =>
    by_cases hp : p c = true
    · simp [altOptChar, hp] at h
      rcases h with h | h
      · subst h
        exact ⟨rfl, Or.inr ⟨c, rfl, hp⟩⟩
      · subst h
        simp
    · simp [altOptChar, hp] at h
      subst h
      simp

theorem toAlts_mem (o : Option (List Char × List Char))
    (pr : List Char × List Char) (h : pr ∈ toAlts o) : o = some pr := by
  cases o with
  | none => simp [toAlts] at h
  | some x =>
    simp [toAlts] at h
    simp [h]

theorem seqAlts_mem (f g : List Char → List (List Char × List Char))
    (s : List Char) (pr : List Char × List Char) (h : pr ∈ seqAlts f g s) :
    ∃ a b, a ∈ f s ∧ b ∈ g a.2 ∧ pr = (a.1 ++ b.1, b.2) := by
  unfold seqAlts at h
  simp only [List.mem_flatMap, List.mem_map] at h
  obtain ⟨a, ha, b, hb, hpr⟩ := h
  exact ⟨a, b, ha, hb, hpr.symm⟩

theorem isWsChar_not_digit (c : Char) (h : isWsChar c = true) :
    c.isDigit = false := by
  unfold isWsChar at h
  simp at h
  rcases h with h | h | h | h | h | h <;> subst h <;> decide

theorem isSepChar_not_digit (c : Char) (h : isSepChar c = true) :
    c.isDigit = false := by
  unfold isSepChar at h
  simp at h
  rcases h with h | h | h
  · exact isWsChar_not_digit c h
  · subst h; decide
  · subst h; decide

theorem phoneA_spec (s : List Char) (pr : List Char × List Char)
    (h : pr ∈ phoneA s) : s = pr.1 ++ pr.2 ∧
      1 ≤ countDigits pr.1 ∧ countDigits pr.1 ≤ 2 := by
  unfold phoneA at h
  obtain ⟨a, b, ha, hb, hpr⟩ := seqAlts_mem _ _ _ _ h
  obtain ⟨b1, b2, hb1, hb2, hbpr⟩ := seqAlts_mem _ _ _ _ hb
  obtain ⟨hsa, hca⟩ := altOptChar_spec _ _ _ ha
  obtain ⟨hsb2, hcb2⟩ := altOptChar_spec _ _ _ hb2
  have hb1d : b1.2 = b2.1 ++ b2.2 → True := fun _ => trivial
  have hd : a.2 = b1.1 ++ b1.2 ∧ b1.1.length ∈ ({1, 2} : Set Nat) ∧
      ∀ c ∈ b1.1, c.isDigit = true := by
    rw [List.mem_append] at hb1
    rcases hb1 with hb1 | hb1
    · obtain ⟨h1, h2, h3⟩ := digitsN_spec 2 a.2 b1 (toAlts_mem _ _ hb1)
      exact ⟨h1, by simp [h2], h3⟩
    · obtain ⟨h1, h2, h3⟩ := digitsN_spec 1 a.2 b1 (toAlts_mem _ _ hb1)
      exact ⟨h1, by simp [h2], h3⟩
  have hda : countDigits a.1 = 0 := by
    rcases hca with hca | ⟨c, hc1, hc2⟩
    · simp [hca, countDigits]
    · simp at hc2
      rw [hc1, hc2]
      simp [countDigits]
  have hdb2 : countDigits b2.1 = 0 := by
    rcases hcb2 with hcb2 | ⟨c, hc1, hc2⟩
    · simp [hcb2, countDigits]
    · rw [hc1]
      simp [countDigits, isWsChar_not_digit c hc2]
  have hdb1 : countDigits b1.1 = b1.1.length := countDigits_all _ hd.2.2
  subst hpr hbpr
  constructor
  · simp only []
    rw [hsa, hd.1, hsb2]
    simp
  · simp only [countDigits_append, hda, hdb1, hdb2]
    have := hd.2.1
    simp at this
    rcases this with h | h <;> omega

theorem phoneB_spec (s : List Char) (pr : List Char × List Char)
    (h : pr ∈ phoneB s) : s = pr.1 ++ pr.2 ∧ countDigits pr.1 = 3 := by
  unfold phoneB at h
  obtain ⟨a, b, ha, hb, hpr⟩ := seqAlts_mem _ _ _ _ h
  obtain ⟨b1, b2, hb1, hb2, hbpr⟩ := seqAlts_mem _ _ _ _ hb
  obtain ⟨c1, c2, hc1, hc2, hcpr⟩ := seqAlts_mem _ _ _ _ hb2
  obtain ⟨hsa, hca⟩ := altOptChar_spec _ _ _ ha
  obtain ⟨hsc1, hcc1⟩ := altOptChar_spec _ _ _ hc1
  obtain ⟨hsc2, hcc2⟩ := altOptChar_spec _ _ _ hc2
  obtain ⟨hd1, hd2, hd3⟩ := digitsN_spec 3 a.2 b1 (toAlts_mem _ _ hb1)
  have hda : countDigits a.1 = 0 := by
    rcases hca with hca | ⟨c, he1, he2⟩
    · simp [hca, countDigits]
    · simp at he2
      rw [he1, he2]
      simp [countDigits]
  have hdc1 : countDigits c1.1 = 0 := by
    rcases hcc1 with hcc1 | ⟨c, he1, he2⟩
    · simp [hcc1, countDigits]
    · simp at he2
      rw [he1, he2]
      simp [countDigits]
  have hdc2 : countDigits c2.1 = 0 := by
    rcases hcc2 with hcc2 | ⟨c, he1, he2⟩
    · simp [hcc2, countDigits]
    · rw [he1]
      simp [countDigits, isSepChar_not_digit c he2]
  have hdb1 : countDigits b1.1 = 3 := by
    rw [countDigits_all _ hd3, hd2]
  subst hpr hbpr hcpr
  constructor
  · simp only []
    rw [hsa, hd1, hsc1, hsc2]
    simp
  · simp only [countDigits_append, hda, hdb1, hdc1, hdc2]

theorem phoneC_spec (s : List Char) (pr : List Char × List Char)
    (h : pr ∈ phoneC s) : s = pr.1 ++ pr.2 ∧ countDigits pr.1 = 7 := by
  unfold phoneC at h
  obtain ⟨a, b, ha, hb, hpr⟩ := seqAlts_mem _ _ _ _ h
  obtain ⟨b1, b2, hb1, hb2, hbpr⟩ := seqAlts_mem _ _ _ _ hb
  obtain ⟨ha1, ha2, ha3⟩ := digitsN_spec 3 s a (toAlts_mem _ _ ha)
  obtain ⟨hsb1, hcb1⟩ := altOptChar_spec _ _ _ hb1
  obtain ⟨hb21, hb22, hb23⟩ := digitsN_spec 4 b1.2 b2 (toAlts_mem _ _ hb2)
  have hda : countDigits a.1 = 3 := by
    rw [countDigits_all _ ha3, ha2]
  have hdb1 : countDigits b1.1 = 0 := by
    rcases hcb1 with hcb1 | ⟨c, he1, he2⟩
    · simp [hcb1, countDigits]
    · rw [he1]
      simp [countDigits, isSepChar_not_digit c he2]
  have hdb2 : countDigits b2.1 = 4 := by
    rw [countDigits_all _ hb23, hb22]
  subst hpr hbpr
  constructor
  · simp only []
    rw [ha1, hsb1, hb21]
    simp
  · simp only [countDigits_append, hda, hdb1, hdb2]

theorem matchPhoneAt_spec (s : List Char) (pr : List Char × List Char)
    (h : matchPhoneAt s = some pr) :
    s = pr.1 ++ pr.2 ∧ 7 ≤ countDigits pr.1 ∧ countDigits pr.1 ≤ 12 := by
  have hm : pr ∈ phoneAlts s := by
    unfold matchPhoneAt at h
    cases hl : phoneAlts s with
    | nil => rw [hl] at h; simp at h
    | cons x t =>
      rw [hl] at h
      simp at h
      simp [h]
  unfold phoneAlts at hm
  obtain ⟨a, b, ha, hb, hpr⟩ := seqAlts_mem _ _ _ _ hm
  obtain ⟨b1, b2, hb1, hb2, hbpr⟩ := seqAlts_mem _ _ _ _ hb
  have hA : s = a.1 ++ a.2 ∧ countDigits a.1 ≤ 2 := by
    rw [List.mem_append] at ha
    rcases ha with ha | ha
    · obtain ⟨h1, h2, h3⟩ := phoneA_spec s a ha
      exact ⟨h1, h3⟩
    · simp at ha
      rw [ha]
      simp [countDigits]
  have hB : a.2 = b1.1 ++ b1.2 ∧ countDigits b1.1 ≤ 3 := by
    rw [List.mem_append] at hb1
    rcases hb1 with hb1 | hb1
    · obtain ⟨h1, h2⟩ := phoneB_spec a.2 b1 hb1
      exact ⟨h1, by omega⟩
    · simp at hb1
      rw [hb1]
      simp [countDigits]
  obtain ⟨hC1, hC2⟩ := phoneC_spec b1.2 b2 hb2
  subst hpr hbpr
  refine ⟨?_, ?_, ?_⟩
  · simp only []
    rw [hA.1, hB.1, hC1]
    simp
  · simp only [countDigits_append, hC2]
    omega
  · simp only [countDigits_append, hC2]
    have := hA.2
    have := hB.2
    omega

theorem replScanF_succ (m : Option Char → List Char → Option (List Char × List Char))
    (ph : List Char) (fuel : Nat) (prev : Option Char) (s : List Char) :
    replScanF m ph (fuel + 1) prev s =
      match m prev s with
      | some (c, r) =>
        let q := replScanF m ph fuel ((c.getLast?).orElse (fun _ => prev)) r
        (ph ++ q.1, c :: q.2)
      | none =>
        match s with
        | [] => ([], [])
        | a :: t =>
          let q := replScanF m ph fuel (some a) t
          (a :: q.1, q.2) := rfl

theorem replScanF_matches
    (m : Option Char → List Char → Option (List Char × List Char))
    (ph : List Char) (Q : List Char → Prop)
    (hm : ∀ prev s pr, m prev s = some pr → Q pr.1) :
    ∀ fuel prev s, ∀ x ∈ (replScanF m ph fuel prev s).2, Q x := by
  intro fuel
  induction fuel with
  | zero => intro prev s x hx; simp [replScanF] at hx
  | succ f ih =>
    intro prev s x hx
    rw [replScanF_succ] at hx
    cases hstep : m prev s with
    | some pr =>
      rw [hstep] at hx
      simp at hx
      rcases hx with hx | hx
      · subst hx
        exact hm prev s pr hstep
      · exact ih _ _ x hx
    | none =>
      rw [hstep] at hx
      cases s with
      | nil => simp at hx
      | cons a t =>
        simp at hx
        exact ih _ _ x hx

/-! ## Operation-level lemmas -/

theorem substrB_nil (hay : List Char) : substrB [] hay = true := by
  unfold substrB
  rw [List.any_eq_true]
  exact ⟨0, by simp, by simp [List.isPrefixOf]⟩

theorem filter_substrB_nil (l : List ProcessedEntry) :
    l.filter (fun e => substrB (("").data) (toLowerS e.tags).data) = l := by
  apply List.filter_eq_self.mpr
  intro e _
  exact substrB_nil _

theorem isEmpty_false_of_ne_nil (l : List RawEntry) (h : l ≠ []) :
    l.isEmpty = false := by
  cases l with
  | nil => exact absurd rfl h
  | cons a t => rfl

/-- Shape of the Base64 decode of a fresh ciphertext: the salted header,
the embedded salt, then the raw ciphertext bytes. -/
theorem encryptBytes_decode (P : CipherPrims) (hP : GoodPrims P)
    (pt : List Nat) (key : String) (salt : List Nat)
    (hpt : ∀ x ∈ pt, x < 256) (hslt : ∀ x ∈ salt, x < 256) :
    b64Decode (encryptBytes P pt key salt).data
      = some (saltedMagic ++ salt ++ (cbcEncBlocks P (P.kdf key salt).1
        (P.kdf key salt).2 (chunk16 (padPKCS7 pt))).flatten) := by
  obtain ⟨hiv16, hivlt⟩ := hP.2.2.2 key salt
  have hchunks : ∀ b ∈ chunk16 (padPKCS7 pt), b.length = 16 ∧ ∀ x ∈ b, x < 256 := by
    intro b hb
    exact ⟨chunk16_all16 _ _ (Nat.le_refl _) (pad_mod16 pt) b hb,
      chunk16_all_lt _ _ (pad_lt pt hpt) b hb⟩
  have hctgood : ∀ c ∈ cbcEncBlocks P (P.kdf key salt).1 (P.kdf key salt).2
      (chunk16 (padPKCS7 pt)), c.length = 16 ∧ ∀ x ∈ c, x < 256 :=
    cbcEncBlocks_good P hP _ _ _ hiv16 hivlt hchunks
  have hbytes : ∀ x ∈ saltedMagic ++ salt ++ (cbcEncBlocks P (P.kdf key salt).1
      (P.kdf key salt).2 (chunk16 (padPKCS7 pt))).flatten, x < 256 := by
    intro x hx
    simp only [List.mem_append] at hx
    rcases hx with (hx | hx) | hx
    · exact saltedMagic_lt x hx
    · exact hslt x hx
    · rw [List.mem_flatten] at hx
      obtain ⟨sblk, hs, hxs⟩ := hx
      exact (hctgood sblk hs).2 x hxs
  unfold encryptBytes
  exact b64_roundtrip _ hbytes

/-- Distinct salts produce distinct ciphertext texts. -/
theorem encryptS_salt_injective (P : CipherPrims) (hP : GoodPrims P)
    (s key : String) (salt1 salt2 : List Nat)
    (hc : ∀ c ∈ s.data, c.toNat < 256)
    (h1 : salt1.length = 8) (h1l : ∀ x ∈ salt1, x < 256)
    (h2 : salt2.length = 8) (h2l : ∀ x ∈ salt2, x < 256)
    (hne : salt1 ≠ salt2) :
    encryptS P s key salt1 ≠ encryptS P s key salt2 := by
  intro heq
  have hd1 := encryptBytes_decode P hP (strToBytes s) key salt1
    (strToBytes_lt s hc) h1l
  have hd2 := encryptBytes_decode P hP (strToBytes s) key salt2
    (strToBytes_lt s hc) h2l
  unfold encryptS at heq
  rw [heq, hd2] at hd1
  simp only [Option.some.injEq] at hd1
  have := congrArg (fun l => (l.drop 8).take 8) hd1
  simp only [List.append_assoc, List.drop_left' saltedMagic_len] at this
  rw [List.take_left' h2, List.take_left' h1] at this
  exact hne this.symm

/-! ## KeyResolver lemmas -/

theorem matchKeyLineAt_ne_nil (name s v : List Char)
    (h : matchKeyLineAt name s = some v) : v ≠ [] := by
  unfold matchKeyLineAt at h
  rw [Option.bind_eq_some] at h
  obtain ⟨r1, _, h⟩ := h
  rw [Option.bind_eq_some] at h
  obtain ⟨r3, _, h⟩ := h
  rw [Option.bind_eq_some] at h
  obtain ⟨r5, _, h⟩ := h
  cases r5 with
  | nil => simp at h
  | cons c0 t =>
    simp only [] at h
    split at h
    · exact absurd h (by simp)
    · split at h
      · simp at h
        subst h
        simp
      · exact absurd h (by simp)

theorem extractKeyNameF_ne : ∀ (fuel : Nat) (name s : List Char) (v : String),
    extractKeyNameF name fuel s = some v → v ≠ ("") := by
  intro fuel
  induction fuel with
  | zero => intro name s v h; simp [extractKeyNameF] at h
  | succ f ih =>
    intro name s v h
    unfold extractKeyNameF at h
    cases hm : matchKeyLineAt name s with
    | some w =>
      rw [hm] at h
      simp at h
      subst h
      intro hc
      exact matchKeyLineAt_ne_nil name s w hm (congrArg String.data hc)
    | none =>
      rw [hm] at h
      cases hd : dropToNextLine s with
      | some t =>
        rw [hd] at h
        exact ih name t v h
      | none =>
        rw [hd] at h
        simp at h

/-! ## Claims -/

/-- C1: for every secret k and every string s, decrypting the result of
encrypting s with k, using the same secret k, returns s exactly.
Strings are carried through the cipher as their code units (each below
256, the byte range of the pipeline); the block transform and KDF are
the `GoodPrims` parameters; the salt is the call's randomness. -/
theorem c1_decrypt_encrypt_roundtrip (P : CipherPrims) (hP : GoodPrims P)
    (s k : String) (salt : List Nat) (hs : ∀ c ∈ s.data, c.toNat < 256)
    (hs8 : salt.length = 8) (hslt : ∀ x ∈ salt, x < 256) :
    decryptS P (encryptS P s k salt) k = s := by
  unfold decryptS encryptS
  rw [decrypt_encrypt_bytes P hP (strToBytes s) k salt (strToBytes_lt s hs)
    hs8 hslt]
  exact bytesToStr_strToBytes s

theorem c1_witness :
    decryptS xorPrims (encryptS xorPrims ("hi") ("key1") [1, 2, 3, 4, 5, 6, 7, 8])
      ("key1") = ("hi") :=
  c1_decrypt_encrypt_roundtrip xorPrims goodXorPrims ("hi") ("key1")
    [1, 2, 3, 4, 5, 6, 7, 8] (by decide) (by decide) (by decide)

/-- C2: for every document whose header has a SecondaryKey line but no
PrimaryKey line and that contains record blocks, lookup succeeds and
returns the processed (decrypted) reference data for every record, while
decryptAll (handleDecryption) and revealDetails fail with the
secret-not-found error and return no decrypted content. -/
theorem c2_compartmentalization (P : CipherPrims) (doc ks : String)
    (entry : ProcessedEntry)
    (hpri : (extractKeys doc).primary = none)
    (hsec : (extractKeys doc).secondary = some ks)
    (hrec : scanBlocks doc.data ≠ []) :
    lookup P doc ("") = Except.ok
      (((scanBlocks doc.data).map entryOfMatch).map (processEntry P ks)) ∧
    handleDecryption P doc = Except.error PSErr.secretNotFound ∧
    revealDetails P doc entry = Except.error PSErr.secretNotFound := by
  refine ⟨?_, ?_, ?_⟩
  · unfold lookup
    rw [hsec]
    simp [isEmpty_false_of_ne_nil _ hrec, renderEntries, filter_substrB_nil]
  · unfold handleDecryption
    rw [hpri]
  · unfold revealDetails
    rw [hpri]

theorem c2_witness :
    lookup xorPrims docC2 ("") = Except.ok
      (((scanBlocks docC2.data).map entryOfMatch).map
        (processEntry xorPrims ("sk"))) ∧
    handleDecryption xorPrims docC2 = Except.error PSErr.secretNotFound ∧
    revealDetails xorPrims docC2 entryC2 = Except.error PSErr.secretNotFound :=
  c2_compartmentalization xorPrims docC2 ("sk") entryC2 (by decide) (by decide)
    (by decide)

/-- C3: a document of N well-formed record blocks with arbitrary
unrelated text (text in which the block start marker never occurs)
before, between and after them parses to exactly N records in document
order; zero blocks give the empty list; and a truncated block is not
matched and the parse returns the empty list rather than failing. -/
theorem c3_parser_tolerance (segs : List (List Char × RawEntry))
    (final : List Char) (hgood : ∀ pe ∈ segs, goodEntry pe.2)
    (hclean : CleanSegs segs final) :
    scanBlocks (assembleDoc segs final) = segs.map (fun pe => pe.2) ∧
    scanBlocks truncatedBlockDoc = [] :=
  ⟨scanBlocks_assemble segs final hgood hclean, by decide⟩

theorem c3_witness :
    scanBlocks (assembleDoc segsW finalW) = segsW.map (fun pe => pe.2) ∧
    scanBlocks truncatedBlockDoc = [] :=
  c3_parser_tolerance segsW finalW (by decide) (by decide)

/-- C4 (amended): every substring replaced by the phone-number redaction
step contains between 7 and 12 digits; in particular the pattern can
match a substring of only 7 digits, because both the country-code group
and the area-code group of the pattern are optional. -/
theorem c4_phone_digit_bounds (s : List Char) :
    ∀ mm ∈ phoneMatches s, 7 ≤ countDigits mm ∧ countDigits mm ≤ 12 := by
  intro mm hmm
  unfold phoneMatches matchesOfM at hmm
  exact replScanF_matches _ _ (fun x => 7 ≤ countDigits x ∧ countDigits x ≤ 12)
    (fun prev s2 pr h => ⟨(matchPhoneAt_spec s2 pr h).2.1,
      (matchPhoneAt_spec s2 pr h).2.2⟩) _ none s mm hmm

theorem c4_witness :
    7 ≤ countDigits (("555-123-4567").data) ∧
    countDigits (("555-123-4567").data) ≤ 12 :=
  c4_phone_digit_bounds (("555-123-4567").data) (("555-123-4567").data)
    (by decide)

/-- C4 counterexample: the phone pattern of the source replaces the
substring 123-4567, which contains only 7 digits, refuting the claim
that no substring with fewer than 10 digits is matched. -/
theorem c4_counterexample :
    (("123-4567").data) ∈ phoneMatches (("123-4567").data) ∧
    countDigits (("123-4567").data) = 7 ∧
    redact ("123-4567") = ("[REDACTED_PHONE]") := by
  refine ⟨by decide, by decide, by decide⟩

/-- C5: in the batch operations, a record whose reference fails to
deserialize (lookup) or whose ciphertext fails to decrypt (decryptAll)
is surfaced in the result with the designated placeholder values, while
the result keeps one entry per parsed record, so nothing is dropped and
the batch never aborts. -/
theorem c5_batch_error_placeholders (P : CipherPrims) (doc ks kp : String)
    (hpri : (extractKeys doc).primary = some kp)
    (hsec : (extractKeys doc).secondary = some ks)
    (hrec : scanBlocks doc.data ≠ []) :
    (∃ l, lookup P doc ("") = Except.ok l ∧
      l.length = (scanBlocks doc.data).length ∧
      ∀ mm ∈ scanBlocks doc.data,
        parseRef (decryptS P (trimS ⟨mm.c3⟩) ks) = none →
        ({ id := trimS ⟨mm.id⟩, timestamp := ("[Error]"),
           notes := ("[Error]"), tags := (""),
           primaryContent := trimS ⟨mm.c1⟩,
           primaryMetadata := trimS ⟨mm.c2⟩ } : ProcessedEntry) ∈ l) ∧
    (∃ l2, handleDecryption P doc = Except.ok l2 ∧
      l2.length = (scanBlocks doc.data).length ∧
      ∀ mm ∈ scanBlocks doc.data, decryptBytes P (trimS ⟨mm.c1⟩) kp = none →
        ({ id := trimS ⟨mm.id⟩, content := ("[Decryption Error]"),
           metadata := decryptS P (trimS ⟨mm.c2⟩) kp } : DecEntry) ∈ l2) := by
  constructor
  · refine ⟨((scanBlocks doc.data).map entryOfMatch).map (processEntry P ks),
      ?_, by simp, ?_⟩
    · unfold lookup
      rw [hsec]
      simp [isEmpty_false_of_ne_nil _ hrec, renderEntries, filter_substrB_nil]
    · intro mm hmm hfail
      have href : (entryOfMatch mm).encryptedReference = trimS ⟨mm.c3⟩ := rfl
      have hpe : processEntry P ks (entryOfMatch mm) =
          { id := trimS ⟨mm.id⟩, timestamp := ("[Error]"),
            notes := ("[Error]"), tags := (""),
            primaryContent := trimS ⟨mm.c1⟩,
            primaryMetadata := trimS ⟨mm.c2⟩ } := by
        unfold processEntry
        rw [href, hfail]
        rfl
      have hmem := List.mem_map_of_mem (processEntry P ks)
        (List.mem_map_of_mem entryOfMatch hmm)
      rw [hpe] at hmem
      exact hmem
  · refine ⟨(scanBlocks doc.data).map (fun m =>
      { id := trimS ⟨m.id⟩, content := decryptS P (trimS ⟨m.c1⟩) kp,
        metadata := decryptS P (trimS ⟨m.c2⟩) kp }), ?_, by simp, ?_⟩
    · unfold handleDecryption
      rw [hpri]
      simp [isEmpty_false_of_ne_nil _ hrec]
    · intro mm hmm hfail
      have hde : DecEntry.mk (trimS ⟨mm.id⟩)
          (decryptS P (trimS ⟨mm.c1⟩) kp) (decryptS P (trimS ⟨mm.c2⟩) kp)
          = DecEntry.mk (trimS ⟨mm.id⟩) ("[Decryption Error]")
            (decryptS P (trimS ⟨mm.c2⟩) kp) := by
        unfold decryptS
        rw [hfail]
      have hmem := List.mem_map_of_mem (fun m : RawEntry =>
        DecEntry.mk (trimS ⟨m.id⟩) (decryptS P (trimS ⟨m.c1⟩) kp)
          (decryptS P (trimS ⟨m.c2⟩) kp)) hmm
      rw [show (fun m : RawEntry =>
        DecEntry.mk (trimS ⟨m.id⟩) (decryptS P (trimS ⟨m.c1⟩) kp)
          (decryptS P (trimS ⟨m.c2⟩) kp)) mm
          = DecEntry.mk (trimS ⟨mm.id⟩) (decryptS P (trimS ⟨mm.c1⟩) kp)
            (decryptS P (trimS ⟨mm.c2⟩) kp) from rfl, hde] at hmem
      exact hmem

theorem c5_witness :
    (∃ l, lookup xorPrims docC5 ("") = Except.ok l ∧
      l.length = (scanBlocks docC5.data).length ∧
      ∀ mm ∈ scanBlocks docC5.data,
        parseRef (decryptS xorPrims (trimS ⟨mm.c3⟩) ("sk")) = none →
        ({ id := trimS ⟨mm.id⟩, timestamp := ("[Error]"),
           notes := ("[Error]"), tags := (""),
           primaryContent := trimS ⟨mm.c1⟩,
           primaryMetadata := trimS ⟨mm.c2⟩ } : ProcessedEntry) ∈ l) ∧
    (∃ l2, handleDecryption xorPrims docC5 = Except.ok l2 ∧
      l2.length = (scanBlocks docC5.data).length ∧
      ∀ mm ∈ scanBlocks docC5.data,
        decryptBytes xorPrims (trimS ⟨mm.c1⟩) ("pk") = none →
        ({ id := trimS ⟨mm.id⟩, content := ("[Decryption Error]"),
           metadata := decryptS xorPrims (trimS ⟨mm.c2⟩) ("pk") } : DecEntry)
          ∈ l2) :=
  c5_batch_error_placeholders xorPrims docC5 ("sk") ("pk") (by decide)
    (by decide) (by decide)

/-- C6: when a required secret is absent from the document header, the
add-record operation reports the secret-not-found error and returns the
document text completely unmodified. -/
theorem c6_abort_unmodified (P : CipherPrims) (doc : String) (cursor : Nat)
    (content metadata notes tags timestamp uniqueId : String)
    (saltC saltM saltR : List Nat)
    (h : (extractKeys doc).primary = none ∨
      (extractKeys doc).secondary = none) :
    insertEncryptedPromptEntry P doc cursor content metadata notes tags
      timestamp uniqueId saltC saltM saltR
      = (doc, some PSErr.secretNotFound) := by
  rcases h with h | h
  · unfold insertEncryptedPromptEntry
    rw [h]
  · unfold insertEncryptedPromptEntry
    cases hp : (extractKeys doc).primary with
    | none => rfl
    | some kp => rw [h]

theorem c6_witness :
    insertEncryptedPromptEntry xorPrims docC6 0 ("c") ("m") ("n") ("t")
      ("ts") ("1") [] [] [] = (docC6, some PSErr.secretNotFound) :=
  c6_abort_unmodified xorPrims docC6 0 ("c") ("m") ("n") ("t") ("ts") ("1")
    [] [] [] (Or.inl (by decide))

/-- C7: for every plaintext and secret, two calls to encrypt with
distinct per-call salts (the randomness the source draws per call and
embeds in the ciphertext's portable encoding) produce different
ciphertext text. -/
theorem c7_fresh_salt_distinct (P : CipherPrims) (hP : GoodPrims P)
    (s k : String) (salt1 salt2 : List Nat)
    (hc : ∀ c ∈ s.data, c.toNat < 256)
    (h1 : salt1.length = 8) (h1l : ∀ x ∈ salt1, x < 256)
    (h2 : salt2.length = 8) (h2l : ∀ x ∈ salt2, x < 256)
    (hne : salt1 ≠ salt2) :
    encryptS P s k salt1 ≠ encryptS P s k salt2 :=
  encryptS_salt_injective P hP s k salt1 salt2 hc h1 h1l h2 h2l hne

theorem c7_witness :
    encryptS xorPrims ("hello") ("key1") [1, 2, 3, 4, 5, 6, 7, 8] ≠
      encryptS xorPrims ("hello") ("key1") [9, 9, 9, 9, 9, 9, 9, 9] :=
  c7_fresh_salt_distinct xorPrims goodXorPrims ("hello") ("key1")
    [1, 2, 3, 4, 5, 6, 7, 8] [9, 9, 9, 9, 9, 9, 9, 9] (by decide) (by decide)
    (by decide) (by decide) (by decide) (by decide)

/-- C8 (amended): the three fixed placeholders do not themselves match
any of the PII patterns, so redact leaves each placeholder unchanged;
the full idempotence claim fails (see the counterexample). -/
theorem c8_placeholders_unchanged :
    redact ("[REDACTED_EMAIL]") = ("[REDACTED_EMAIL]") ∧
    redact ("[REDACTED_PHONE]") = ("[REDACTED_PHONE]") ∧
    redact ("[REDACTED_SSN]") = ("[REDACTED_SSN]") := by
  refine ⟨by decide, by decide, by decide⟩

/-- C8 counterexample: redact is not idempotent.  On a@b.co1234567 the
e-mail pass initially fails (the candidate top-level domain co is
followed by a digit, so the trailing word boundary fails), the phone
pass then replaces the digits, and on a second application the e-mail
pattern suddenly matches a@b.co because the placeholder's opening
bracket now provides the word boundary. -/
theorem c8_counterexample :
    redact (redact ("a@b.co1234567")) ≠ redact ("a@b.co1234567") ∧
    redact ("a@b.co1234567") = ("a@b.co[REDACTED_PHONE]") ∧
    redact (redact ("a@b.co1234567")) = ("[REDACTED_EMAIL][REDACTED_PHONE]") := by
  refine ⟨by decide, by decide, by decide⟩

/-- C9: parsing a serialized record block yields exactly that block's id
and three ciphertext fields: parse after serialize is the identity on
the block's fields (for fields the write path produces: nonempty,
newline-free, id not starting with whitespace). -/
theorem c9_serialize_parse (e : RawEntry) (hg : goodEntry e) :
    scanBlocks (serializeEntry e.id e.c1 e.c2 e.c3) = [e] := by
  have h := scanBlocks_block e [] hg
  simpa using h

theorem c9_witness : scanBlocks (serializeEntry entryW1.id entryW1.c1
    entryW1.c2 entryW1.c3) = [entryW1] :=
  c9_serialize_parse entryW1 (by decide)

/-- C10: an empty quoted header value can never be extracted (the key
patterns require a nonempty quoted value), so an empty secret is
indistinguishable from a missing one and operations requiring the
secret abort with the secret-not-found error, as on the document whose
PrimaryKey line carries an empty quoted value. -/
theorem c10_empty_secret_never_extracted (doc : String) :
    (∀ v, (extractKeys doc).primary = some v → v ≠ ("")) ∧
    (∀ v, (extractKeys doc).secondary = some v → v ≠ ("")) ∧
    (extractKeys docC10).primary = none ∧
    handleDecryption xorPrims docC10 = Except.error PSErr.secretNotFound ∧
    (insertEncryptedPromptEntry xorPrims docC10 0 ("c") ("m") ("n") ("t")
      ("ts") ("1") [] [] []).2 = some PSErr.secretNotFound := by
  have hnone : (extractKeys docC10).primary = none := by decide
  refine ⟨?_, ?_, hnone, ?_, ?_⟩
  · intro v h
    exact extractKeyNameF_ne _ _ _ _ h
  · intro v h
    exact extractKeyNameF_ne _ _ _ _ h
  · unfold handleDecryption
    rw [hnone]
  · unfold insertEncryptedPromptEntry
    rw [hnone]

theorem c10_witness :
    ("abc" : String) ≠ ("") ∧ (extractKeys docC10).primary = none :=
  ⟨(c10_empty_secret_never_extracted docC10w).1 ("abc") (by decide),
   (c10_empty_secret_never_extracted docC10).2.2.1⟩
